import Mathlib

/-! Verification of `parser.go` (Bahus/go-parser).

A shallow embedding of `src/parser.go`:

* Go strings are byte sequences (`GoString`).
* The sequential functions `getPageText` and `findAndPrintLinesCount` are
  functions from the outcome of the HTTP exchange to the sequence of effects
  they perform (and, for `getPageText`, the returned pair).
* `startDispatcher`, the worker goroutines it spawns, the goroutine that waits
  on the `sync.WaitGroup` and closes `results`, and the sender on `tasks` are an
  interleaving transition system: `step` executes one atomic action of one
  goroutine.
* Go `int` values are counts of matches and sums of them; they are embedded as
  `Nat` (a count is at most the body length plus one, so the 64-bit `int`
  total does not wrap before about `2^63` bytes or URLs have been fetched).
-/

namespace GoParser

/-! ## Go values -/

/-- A Go `string`: an immutable sequence of bytes. -/
abbrev GoString := List UInt8

/-- The bytes of an ASCII literal. -/
def ascii (s : String) : GoString := s.toList.map (fun c => c.toNat.toUInt8)

/-- A non-nil Go `error` value, identified with its `Error()` text. -/
structure GoError where
  msg : GoString
  deriving DecidableEq, Repr

/-- Decimal rendering of a non-negative `int`, the `%d` verb of `fmt`. -/
def fmtInt (n : Nat) : GoString := ascii (toString n)

/-! ## Go standard library: `strings.Count`

`parser.go` calls `strings.Count`, which is Go standard-library code and not
part of `src/`. `stringsCount` and its helpers follow the library algorithm;
`scanCount` is the scan as the specification words it. -/

/-- `strings.HasPrefix(s, prefix)`. -/
def hasPrefix : GoString → GoString → Bool
  | _, [] => true
  | [], _ :: _ => false
  | c :: s, p :: ps => c == p && hasPrefix s ps

/-- `strings.Index(s, substr)`: the index of the first instance of `substr` in
`s`, or `-1` if `substr` is not present in `s`. -/
def index : GoString → GoString → Int
  | [], substr => if hasPrefix [] substr then 0 else -1
  | c :: s, substr =>
    if hasPrefix (c :: s) substr then 0
    else
      let i := index s substr
      if i = -1 then -1 else i + 1

/-- `bytealg.CountString(s, c)`: the number of bytes of `s` equal to `c`. -/
def countString (s : GoString) (c : UInt8) : Nat := s.count c

/-- The width in bytes of the UTF-8 sequence that starts `s`, as decoded by
`utf8.RuneCountInString`: an invalid or short sequence has width 1. -/
def runeWidth : GoString → Nat
  | [] => 0
  | c :: rest =>
    let cb : UInt8 → Bool := fun b => 0x80 ≤ b && b ≤ 0xBF
    if c < 0x80 then 1
    else if c < 0xC2 then 1
    else if c ≤ 0xDF then
      match rest with
      | b1 :: _ => if cb b1 then 2 else 1
      | _ => 1
    else if c ≤ 0xEF then
      let lo : UInt8 := if c = 0xE0 then 0xA0 else 0x80
      let hi : UInt8 := if c = 0xED then 0x9F else 0xBF
      match rest with
      | b1 :: b2 :: _ => if lo ≤ b1 && b1 ≤ hi && cb b2 then 3 else 1
      | _ => 1
    else if c ≤ 0xF4 then
      let lo : UInt8 := if c = 0xF0 then 0x90 else 0x80
      let hi : UInt8 := if c = 0xF4 then 0x8F else 0xBF
      match rest with
      | b1 :: b2 :: b3 :: _ => if lo ≤ b1 && b1 ≤ hi && cb b2 && cb b3 then 4 else 1
      | _ => 1
    else 1

/-- The loop of `utf8.RuneCountInString`; `fuel` bounds the iterations. -/
def runeCountLoop : Nat → GoString → Nat → Nat
  | 0, _, n => n
  | fuel + 1, s, n =>
    if s.length = 0 then n
    else runeCountLoop fuel (s.drop (runeWidth s)) (n + 1)

/-- `utf8.RuneCountInString(s)`. -/
def runeCountInString (s : GoString) : Nat := runeCountLoop s.length s 0

/-- The `for` loop of `strings.Count` for a pattern of two or more bytes:
find the first instance with `Index`, count it, continue after its end.
`fuel` bounds the iterations. -/
def countLoop : Nat → GoString → GoString → Nat → Nat
  | 0, _, _, n => n
  | fuel + 1, s, substr, n =>
    let i := index s substr
    if i = -1 then n
    else countLoop fuel (s.drop (i.toNat + substr.length)) substr (n + 1)

/-- Modelled from the spec: `strings.Count(s, substr)` is Go standard-library
code and is not under `src/`. The specification describes its value as the
count of non-overlapping, case-sensitive, exact-substring occurrences of the
pattern in the text. The definition follows the library algorithm for that
count, with the helpers `index`, `countString` and `runeCountInString`: an
empty pattern gives the number of runes plus one, a one-byte pattern the number
of bytes equal to it, a longer pattern the number of iterations of the `Index`
loop. -/
def stringsCount (s substr : GoString) : Nat :=
  match substr with
  | [] => runeCountInString s + 1
  | [c] => countString s c
  | _ => countLoop (s.length + 1) s substr 0

/-- The count described in words: one left-to-right scan over the text that
compares the pattern byte for byte at the current position; on a match it
counts one and resumes after the end of the match (`skip` is the number of
bytes of the current match still to pass over), otherwise it moves one byte
on. -/
def scanCountFrom (pattern : GoString) : Nat → GoString → Nat
  | _, [] => 0
  | skip + 1, _ :: rest => scanCountFrom pattern skip rest
  | 0, c :: rest =>
    if hasPrefix (c :: rest) pattern then 1 + scanCountFrom pattern (pattern.length - 1) rest
    else scanCountFrom pattern 0 rest

/-- The scan started at the beginning of the text. -/
def scanCount (text pattern : GoString) : Nat := scanCountFrom pattern 0 text

/-! ## `getPageText` and `findAndPrintLinesCount` -/

/-- What `ioutil.ReadAll(response.Body)` returns: the bytes read and the
error, if any. -/
structure ReadResult where
  data : GoString
  err : Option GoError
  deriving DecidableEq, Repr

/-- The outcome of the HTTP exchange of one call of `getPageText`:
`client.Get` either returns an error, or a response with a status code and a
body whose reading gives a `ReadResult`. -/
inductive HttpOutcome where
  | getErr (e : GoError)
  | response (statusCode : Int) (body : ReadResult)
  deriving DecidableEq, Repr

/-- The observable effects of the worker code, in program order. -/
inductive Event where
  | get (url : GoString)
  | log (line : GoString)
  | readAll
  | closeBody
  | print (line : GoString)
  | send (n : Nat)
  | wgDone
  deriving DecidableEq, Repr

/-- The constant `http.StatusOK`. -/
def statusOK : Int := 200

/-- The `getPageText` method: effects performed, then the returned
`(string, error)` pair. -/
def getPageText (oc : HttpOutcome) (requestURL : GoString) :
    List Event × GoString × Option GoError :=
  match oc with
  | .getErr err =>
    ([.get requestURL,
      .log (ascii "[" ++ requestURL ++ ascii "] " ++ err.msg ++ ascii "\n")],
     [], some err)
  | .response statusCode body =>
    if statusCode ≠ statusOK then
      ([.get requestURL,
        .log (ascii "[" ++ requestURL ++ ascii "] Wrong http response code=" ++
              ascii (toString statusCode) ++ ascii " received\n")],
       [], some ⟨ascii "Wrong http response code received"⟩)
    else
      match body.err with
      | some err =>
        ([.get requestURL, .readAll, .closeBody,
          .log (ascii "[" ++ requestURL ++ ascii "] " ++ err.msg)],
         [], some err)
      | none =>
        ([.get requestURL, .readAll, .closeBody], body.data, none)

/-- The `findAndPrintLinesCount` method: the effects of one run, in order.
The deferred `taskGroup.Done()` runs last on every return. -/
def findAndPrintLinesCount (oc : HttpOutcome) (requestURL whatToFind : GoString) :
    List Event :=
  let r := getPageText oc requestURL
  let body : List Event :=
    match r.2.2 with
    | some _ => r.1
    | none =>
      let totalFound := stringsCount r.2.1 whatToFind
      r.1 ++ [.print (ascii "Count for " ++ requestURL ++ ascii ": " ++
                      fmtInt totalFound ++ ascii "\n"),
              .send totalFound]
  body ++ [.wgDone]

/-! ## `startDispatcher` and the goroutines around it -/

/-- Where the goroutine `func() { tasksGroup.Wait(); close(results) }` stands:
blocked in `Wait`, past `Wait` and about to `close(results)`, or finished. -/
inductive CloserPc where
  | waiting
  | closing
  | finished
  deriving DecidableEq, Repr

/-- Where `startDispatcher` stands: in the `select` of its loop, at
`total <- totalFound`, or returned. -/
inductive DispatcherPc where
  | select
  | sendTotal
  | returned
  deriving DecidableEq, Repr

/-- What a run is given: the URLs the sender puts on `tasks` (in order), the
capacity of the `tasks` channel, the `textToFind` argument, and the outcome of
the HTTP exchange of each spawned worker (numbered in spawn order). -/
structure Config where
  urls : List GoString
  capacity : Nat
  textToFind : GoString
  http : Nat → HttpOutcome

/-- The state of a run. -/
structure State where
  /-- URLs the sender has not yet sent on `tasks`. -/
  input : List GoString
  /-- URLs sent on `tasks` and not yet received: the channel buffer, followed by
  the value of a blocked send if there is one. -/
  queue : List GoString
  /-- Whether `close(tasks)` has been executed. -/
  tasksChanClosed : Bool
  /-- Local variable `totalFound` of `startDispatcher`. -/
  totalFound : Nat
  /-- Local variable `tasksClosed` of `startDispatcher`. -/
  tasksClosed : Bool
  /-- Control point of `startDispatcher`. -/
  pc : DispatcherPc
  /-- Counter of the wait group `tasksGroup`. -/
  wg : Int
  /-- Number of `close(results)` executed. -/
  resultsClosed : Nat
  /-- The spawned workers in spawn order: the effects each has still to perform. -/
  workers : List (List Event)
  /-- The spawned wait-and-close goroutines. -/
  closers : List CloserPc
  /-- The values sent on `total`, in order. -/
  total : List Nat
  /-- Number of values `startDispatcher` has received from `results`. -/
  received : Nat
  /-- Number of run-time panics raised (send on a closed channel, close of a
  closed channel, negative wait-group counter). -/
  panics : Nat
  deriving DecidableEq, Repr

/-- One atomic action of one goroutine. -/
inductive Action where
  /-- Sender: `tasks <- requestURL`. -/
  | sendTask
  /-- Sender: `close(tasks)`. -/
  | closeTasks
  /-- Dispatcher: the `select` takes `case requestURL, ok := <-tasks`. -/
  | recvTask
  /-- Dispatcher: the `select` takes `case count, ok := <-results`, receiving
  the value worker `i` is sending. -/
  | recvResult (i : Nat)
  /-- Dispatcher: the `select` takes `case count, ok := <-results` on the closed
  channel (`ok` is false). -/
  | recvClosed
  /-- Dispatcher: `total <- totalFound` completes and the function returns. -/
  | deliver
  /-- Worker `i` performs its next effect. -/
  | worker (i : Nat)
  /-- Wait-and-close goroutine `j` performs its next step. -/
  | closer (j : Nat)
  deriving DecidableEq, Repr

/-- The state in which `startDispatcher` is started. -/
def init (cfg : Config) : State :=
  { input := cfg.urls, queue := [], tasksChanClosed := false,
    totalFound := 0, tasksClosed := false, pc := .select,
    wg := 0, resultsClosed := 0, workers := [], closers := [],
    total := [], received := 0, panics := 0 }

/-- Sender: `tasks <- requestURL`. A new send starts once the previous one
has completed, that is when every queued value fits the buffer. -/
def stepSendTask (cfg : Config) (s : State) : Option State :=
  match s.input with
  | [] => none
  | u :: rest =>
    if s.tasksChanClosed = false ∧ s.queue.length ≤ cfg.capacity then
      some { s with input := rest, queue := s.queue ++ [u] }
    else none

/-- Sender: `close(tasks)` after the last send has completed. -/
def stepCloseTasks (cfg : Config) (s : State) : Option State :=
  if s.input = [] ∧ s.tasksChanClosed = false ∧ s.queue.length ≤ cfg.capacity then
    some { s with tasksChanClosed := true }
  else none

/-- The case the `select` of `startDispatcher` takes together with the pair
`(value, ok)` it receives; `none` stands for `ok == false`. -/
inductive SelectCase where
  | tasks (requestURL : Option GoString)
  | results (count : Option Nat)
  deriving DecidableEq, Repr

/-- The body of the `for { select { ... } }` loop of `startDispatcher`: the
effect of one iteration on the state, given the case the `select` took.
With a task: `Add(1)` and spawn a worker. On closed `tasks`: set `tasksClosed`
and launch the wait-and-close goroutine if `tasksClosed` was false, nothing
otherwise. With a result: add it to `totalFound`. On closed `results`: leave
the loop for `total <- totalFound`. -/
def startDispatcher (cfg : Config) (s : State) : SelectCase → State
  | .tasks (some requestURL) =>
    { s with
      wg := s.wg + 1
      workers := s.workers ++
        [findAndPrintLinesCount (cfg.http s.workers.length) requestURL cfg.textToFind] }
  | .tasks none =>
    if s.tasksClosed = false then
      { s with tasksClosed := true, closers := s.closers ++ [.waiting] }
    else s
  | .results (some count) => { s with totalFound := s.totalFound + count }
  | .results none => { s with pc := .sendTotal }

/-- Dispatcher, `case requestURL, ok := <-tasks`: enabled when `tasks` holds a
value (received with `ok` true) or is closed and empty (`ok` false). -/
def stepRecvTask (cfg : Config) (s : State) : Option State :=
  if s.pc ≠ .select then none
  else
    match s.queue with
    | requestURL :: rest =>
      some (startDispatcher cfg { s with queue := rest } (.tasks (some requestURL)))
    | [] =>
      if s.tasksChanClosed = false then none
      else some (startDispatcher cfg s (.tasks none))

/-- Dispatcher, `case count, ok := <-results` with `ok` true: the send of
worker `i` and the receive happen together (`results` is unbuffered). -/
def stepRecvResult (cfg : Config) (s : State) (i : Nat) : Option State :=
  if s.pc ≠ .select ∨ s.resultsClosed ≠ 0 then none
  else
    match s.workers[i]? with
    | some (.send count :: rest) =>
      some (startDispatcher cfg
        { s with received := s.received + 1, workers := s.workers.set i rest }
        (.results (some count)))
    | _ => none

/-- Dispatcher, `case count, ok := <-results` with `ok` false: enabled once
`results` is closed. -/
def stepRecvClosed (cfg : Config) (s : State) : Option State :=
  if s.pc = .select ∧ s.resultsClosed ≠ 0 then some (startDispatcher cfg s (.results none))
  else none

/-- Dispatcher: `total <- totalFound; return`. The receiver of `total` is at
`<-total` once it has closed `tasks`. -/
def stepDeliver (s : State) : Option State :=
  if s.pc = .sendTotal ∧ s.tasksChanClosed = true then
    some { s with total := s.total ++ [s.totalFound], pc := .returned }
  else none

/-- Worker `i`: its next effect. A send on `results` is completed by the
dispatcher (`stepRecvResult`) and panics if `results` is closed; `Done`
decrements the wait-group counter and panics if it becomes negative. -/
def stepWorker (s : State) (i : Nat) : Option State :=
  match s.workers[i]? with
  | some (.send _ :: rest) =>
    if s.resultsClosed ≠ 0 then
      some { s with workers := s.workers.set i rest, panics := s.panics + 1 }
    else none
  | some (.wgDone :: rest) =>
    some { s with
      workers := s.workers.set i rest
      wg := s.wg - 1
      panics := if s.wg - 1 < 0 then s.panics + 1 else s.panics }
  | some (_ :: rest) => some { s with workers := s.workers.set i rest }
  | _ => none

/-- Wait-and-close goroutine `j`: `Wait` returns when the counter is zero;
`close(results)` panics if `results` is already closed. -/
def stepCloser (s : State) (j : Nat) : Option State :=
  match s.closers[j]? with
  | some .waiting =>
    if s.wg = 0 then some { s with closers := s.closers.set j .closing } else none
  | some .closing =>
    some { s with
      closers := s.closers.set j .finished
      resultsClosed := s.resultsClosed + 1
      panics := if s.resultsClosed ≠ 0 then s.panics + 1 else s.panics }
  | _ => none

/-- One step of the system: the effect of action `a` in state `s`, or `none`
if `a` is not enabled (the goroutine is blocked, finished or absent). -/
def step (cfg : Config) (s : State) : Action → Option State
  | .sendTask => stepSendTask cfg s
  | .closeTasks => stepCloseTasks cfg s
  | .recvTask => stepRecvTask cfg s
  | .recvResult i => stepRecvResult cfg s i
  | .recvClosed => stepRecvClosed cfg s
  | .deliver => stepDeliver s
  | .worker i => stepWorker s i
  | .closer j => stepCloser s j

/-- Run a schedule: the actions in order, `none` if one is not enabled. -/
def run (cfg : Config) : State → List Action → Option State
  | s, [] => some s
  | s, a :: as =>
    match step cfg s a with
    | some s1 => run cfg s1 as
    | none => none

/-- The states a run of the system can be in. -/
inductive Reachable (cfg : Config) : State → Prop where
  | init : Reachable cfg (init cfg)
  | step {s s1 : State} (a : Action) : Reachable cfg s → step cfg s a = some s1 →
      Reachable cfg s1

/-- Whether the `select` of the dispatcher loop has an enabled case. -/
def loopEnabled (cfg : Config) (s : State) : Bool :=
  (step cfg s .recvTask).isSome || (step cfg s .recvClosed).isSome ||
    (List.range s.workers.length).any (fun i => (step cfg s (.recvResult i)).isSome)

/-- Whether some worker is at its send on `results`. -/
def resultOffered (s : State) : Bool :=
  s.workers.any (fun w => match w with
    | .send _ :: _ => true
    | _ => false)

/-- The sum of the values a sequence of effects sends on `results`. -/
def sentSum : List Event → Nat
  | [] => 0
  | .send n :: es => n + sentSum es
  | _ :: es => sentSum es

/-- The number of sends on `results` in a sequence of effects. -/
def sentCount : List Event → Nat
  | [] => 0
  | .send _ :: es => 1 + sentCount es
  | _ :: es => sentCount es

/-- The number of `Done` calls in a sequence of effects. -/
def doneCount : List Event → Nat
  | [] => 0
  | .wgDone :: es => 1 + doneCount es
  | _ :: es => doneCount es

/-- What the URLs `urls`, fetched by the workers numbered from `k` on, should
add to the total: the count of `textToFind` in the body for each URL whose
`getPageText` succeeds, nothing for the others. -/
def expectedTotal (cfg : Config) : Nat → List GoString → Nat
  | _, [] => 0
  | k, u :: us =>
    (match (getPageText (cfg.http k) u).2.2 with
     | none => stringsCount (getPageText (cfg.http k) u).2.1 cfg.textToFind
     | some _ => 0) + expectedTotal cfg (k + 1) us

/-- The number of URLs among `urls`, fetched by the workers numbered from `k`
on, whose `getPageText` succeeds. -/
def succeeded (cfg : Config) : Nat → List GoString → Nat
  | _, [] => 0
  | k, u :: us =>
    (match (getPageText (cfg.http k) u).2.2 with
     | none => 1
     | some _ => 0) + succeeded cfg (k + 1) us

/-- Whether an effect is a send on `results`. -/
def isSend : Event → Bool
  | .send _ => true
  | _ => false

/-- Whether an effect is a line printed on standard output. -/
def isPrint : Event → Bool
  | .print _ => true
  | _ => false

/-- The sum of `f` over the workers. -/
def workersSum (f : List Event → Nat) (ws : List (List Event)) : Nat := (ws.map f).sum

/-- The invariant of the system. -/
structure Inv (cfg : Config) (s : State) : Prop where
  urls : cfg.urls.drop s.workers.length = s.queue ++ s.input
  spawned : s.workers.length ≤ cfg.urls.length
  sum : s.totalFound + workersSum sentSum s.workers +
      expectedTotal cfg s.workers.length (s.queue ++ s.input) = expectedTotal cfg 0 cfg.urls
  recv : s.received + workersSum sentCount s.workers +
      succeeded cfg s.workers.length (s.queue ++ s.input) = succeeded cfg 0 cfg.urls
  wg : s.wg = (workersSum doneCount s.workers : Nat)
  endsDone : ∀ w ∈ s.workers, w ≠ [] → w.getLast? = some .wgDone
  chanClosed : s.tasksChanClosed = true → s.input = []
  observed : s.tasksClosed = true → s.tasksChanClosed = true ∧ s.queue = []
  closers : (s.closers = [] ∧ s.tasksClosed = false) ∨
      ((∃ c, s.closers = [c]) ∧ s.tasksClosed = true)
  woken : ∀ c ∈ s.closers, c ≠ .waiting → ∀ w ∈ s.workers, w = []
  closed : s.resultsClosed = s.closers.count .finished
  panics : s.panics = 0
  pc : s.pc ≠ .select → s.resultsClosed ≠ 0
  total : (s.pc = .returned → s.total = [s.totalFound]) ∧ (s.pc ≠ .returned → s.total = [])

/-- The steps the wait-and-close goroutine has still to take. -/
def closerWeight : CloserPc → Nat
  | .waiting => 2
  | .closing => 1
  | .finished => 0

/-- The steps `startDispatcher` has still to take once `results` is closed. -/
def pcWeight : DispatcherPc → Nat
  | .select => 2
  | .sendTotal => 1
  | .returned => 0

/-- An upper bound on the number of state-changing steps left in a run. -/
def measure (s : State) : Nat :=
  8 * s.input.length + 7 * s.queue.length + (s.workers.map List.length).sum +
    (if s.tasksChanClosed = true then 0 else 1) + (if s.tasksClosed = true then 0 else 3) +
    (s.closers.map closerWeight).sum + pcWeight s.pc

/-! ## Example runs -/

/-- Two URLs that are both fetched: the first body holds the pattern twice,
the second does not hold it. -/
def twoPages : Config :=
  { urls := [ascii "http://a.test/p1", ascii "http://a.test/p2"]
    capacity := 5
    textToFind := ascii "Go"
    http := fun k =>
      if k = 0 then .response 200 ⟨ascii "Go is great, Go is fun", none⟩
      else .response 200 ⟨ascii "no match here", none⟩ }

/-- A complete schedule for `twoPages` in which the second worker finishes
before the first. -/
def twoPagesSchedule : List Action :=
  [.sendTask, .sendTask, .closeTasks, .recvTask, .recvTask, .recvTask,
   .worker 1, .worker 1, .worker 1, .worker 1, .recvResult 1, .worker 1,
   .worker 0, .worker 0, .worker 0, .worker 0, .recvResult 0, .worker 0,
   .closer 0, .closer 0, .recvClosed, .deliver]

/-- One URL whose request times out. -/
def onePageTimeout : Config :=
  { urls := [ascii "http://a.test/p1"]
    capacity := 5
    textToFind := ascii "Go"
    http := fun _ => .getErr ⟨ascii "timeout"⟩ }

/-- A complete schedule for `onePageTimeout`. -/
def onePageTimeoutSchedule : List Action :=
  [.sendTask, .recvTask, .closeTasks, .recvTask, .worker 0, .worker 0, .worker 0,
   .closer 0, .closer 0, .recvClosed, .deliver]

/-- A schedule for `onePageTimeout` up to the point where the dispatcher has
seen `tasks` closed and the worker has not yet started its request. -/
def onePageWaitingSchedule : List Action :=
  [.sendTask, .recvTask, .closeTasks, .recvTask]

/-- The state `twoPagesSchedule` ends in. -/
def twoPagesFinal : State :=
  { input := [], queue := [], tasksChanClosed := true, totalFound := 2,
    tasksClosed := true, pc := .returned, wg := 0, resultsClosed := 1,
    workers := [[], []], closers := [.finished], total := [2], received := 2,
    panics := 0 }

/-- The state `onePageTimeoutSchedule` ends in. -/
def onePageTimeoutFinal : State :=
  { input := [], queue := [], tasksChanClosed := true, totalFound := 0,
    tasksClosed := true, pc := .returned, wg := 0, resultsClosed := 1,
    workers := [[]], closers := [.finished], total := [0], received := 0,
    panics := 0 }

/-- The state `onePageWaitingSchedule` ends in: `tasks` is closed and seen
closed, the one worker is outstanding and has not reached its send. -/
def onePageWaiting : State :=
  { input := [], queue := [], tasksChanClosed := true, totalFound := 0,
    tasksClosed := true, pc := .select, wg := 1, resultsClosed := 0,
    workers := [[.get (ascii "http://a.test/p1"),
                 .log (ascii "[http://a.test/p1] timeout\n"), .wgDone]],
    closers := [.waiting], total := [], received := 0, panics := 0 }

/-! ## Lemmas on counting -/

theorem hasPrefix_nil_left (p : GoString) (hp : p ≠ []) : hasPrefix [] p = false := by
  cases p with
  | nil => exact absurd rfl hp
  | cons a as => rfl

theorem scanCountFrom_drop (p : GoString) (k : Nat) (s : GoString) :
    scanCountFrom p k s = scanCountFrom p 0 (s.drop k) := by
  induction k generalizing s with
  | zero => simp
  | succ k ih =>
    cases s with
    | nil => simp [scanCountFrom]
    | cons c t => simp [scanCountFrom, ih t]

theorem index_ge (s p : GoString) : index s p = -1 ∨ 0 ≤ index s p := by
  induction s with
  | nil => unfold index; split <;> simp
  | cons c t ih =>
    unfold index
    split
    · simp
    · rcases ih with h | h
      · simp [h]
      · right
        have : index t p ≠ -1 := by omega
        simp only [this, if_false]
        omega

theorem scan_of_index_neg (p : GoString) (s : GoString)
    (h : index s p = -1) : scanCountFrom p 0 s = 0 := by
  induction s with
  | nil => simp [scanCountFrom]
  | cons c t ih =>
    unfold index at h
    split at h
    · simp at h
    · rename_i hpre
      have hne : index t p = -1 := by
        by_contra hc
        simp only [hc, if_false] at h
        rcases index_ge t p with h1 | h1
        · exact hc h1
        · omega
      simp [scanCountFrom, hpre, ih hne]

theorem scan_of_index (p : GoString) (hp : p ≠ []) (s : GoString)
    (h : index s p ≠ -1) :
    scanCountFrom p 0 s = 1 + scanCountFrom p 0 (s.drop ((index s p).toNat + p.length)) := by
  induction s with
  | nil =>
    exfalso
    apply h
    simp [index, hasPrefix_nil_left p hp]
  | cons c t ih =>
    have hlen : 1 ≤ p.length := by
      cases p with
      | nil => exact absurd rfl hp
      | cons a as => simp
    by_cases hpre : hasPrefix (c :: t) p = true
    · have hi : index (c :: t) p = 0 := by simp [index, hpre]
      have hd : (c :: t).drop (0 + p.length) = t.drop (p.length - 1) := by
        obtain ⟨m, hm⟩ : ∃ m, p.length = m + 1 := ⟨p.length - 1, by omega⟩
        simp [hm]
      rw [hi]
      simp only [Int.toNat_zero]
      rw [hd]
      simp only [scanCountFrom, hpre, if_true]
      rw [scanCountFrom_drop]
    · have hne : index t p ≠ -1 := by
        intro hc
        apply h
        simp [index, hpre, hc]
      have hi : index (c :: t) p = index t p + 1 := by
        simp [index, hpre, hne]
      have hnn : 0 ≤ index t p := by
        rcases index_ge t p with h1 | h1
        · exact absurd h1 hne
        · exact h1
      have hd : (c :: t).drop ((index t p + 1).toNat + p.length) =
          t.drop ((index t p).toNat + p.length) := by
        have : (index t p + 1).toNat + p.length = ((index t p).toNat + p.length) + 1 := by
          omega
        rw [this]
        rfl
      rw [hi, hd]
      have hpre2 : hasPrefix (c :: t) p = false := by simpa using hpre
      simp only [scanCountFrom, hpre2]
      exact ih hne

theorem countLoop_eq_scan (p : GoString) (hp : p ≠ []) (fuel : Nat) (s : GoString) (n : Nat)
    (hf : s.length < fuel) : countLoop fuel s p n = n + scanCountFrom p 0 s := by
  induction fuel generalizing s n with
  | zero => omega
  | succ fuel ih =>
    unfold countLoop
    by_cases h : index s p = -1
    · simp [h, scan_of_index_neg p s h]
    · simp only [h, if_false]
      have hlen : 1 ≤ p.length := by
        cases p with
        | nil => exact absurd rfl hp
        | cons a as => simp
      have hs : s ≠ [] := by
        intro hs
        apply h
        simp [hs, index, hasPrefix_nil_left p hp]
      have hs2 : 0 < s.length := List.length_pos.mpr hs
      rw [ih _ _ (by simp only [List.length_drop]; omega), scan_of_index p hp s h]
      omega

theorem countString_eq_scan (c : UInt8) (s : GoString) :
    countString s c = scanCountFrom [c] 0 s := by
  induction s with
  | nil => simp [countString, scanCountFrom]
  | cons x t ih =>
    unfold countString at ih ⊢
    by_cases hx : x = c
    · subst hx
      simp [scanCountFrom, hasPrefix, ih]
      omega
    · have hx2 : (x == c) = false := by simpa using hx
      rw [List.count_cons_of_ne (Ne.symm hx)]
      simp [scanCountFrom, hasPrefix, hx2, ih]

theorem stringsCount_eq_scanCount (text pattern : GoString) (hp : pattern ≠ []) :
    stringsCount text pattern = scanCount text pattern := by
  unfold stringsCount scanCount
  split
  · exact absurd rfl hp
  · exact countString_eq_scan _ _
  · rw [countLoop_eq_scan _ hp _ _ _ (by omega)]
    simp

/-! ## The sequential functions -/

/-- C5. For every text and every non-empty pattern, `strings.Count` as the
worker calls it equals the number of matches of one left-to-right scan that
compares bytes exactly and resumes after the end of each match (no overlap);
counting "aa" in "aaaa" gives 2, not 3, and counting "Go" in "go gogo GoGo"
gives 2, not 4. -/
theorem count_is_nonoverlapping_scan :
    (∀ text pattern : GoString, pattern ≠ [] →
      stringsCount text pattern = scanCount text pattern) ∧
    stringsCount (ascii "aaaa") (ascii "aa") = 2 ∧
    stringsCount (ascii "aaaa") (ascii "aa") ≠ 3 ∧
    stringsCount (ascii "go gogo GoGo") (ascii "Go") = 2 ∧
    stringsCount (ascii "go gogo GoGo") (ascii "Go") ≠ 4 :=
  ⟨stringsCount_eq_scanCount, by decide, by decide, by decide, by decide⟩

theorem count_is_nonoverlapping_scan_witness :
    ascii "Go" ≠ [] ∧
    stringsCount (ascii "Go is great, Go is fun") (ascii "Go") =
      scanCount (ascii "Go is great, Go is fun") (ascii "Go") ∧
    scanCount (ascii "Go is great, Go is fun") (ascii "Go") = 2 :=
  ⟨by decide, count_is_nonoverlapping_scan.1 _ _ (by decide), by decide⟩

/-- C6. `getPageText` returns a nil error exactly when `client.Get` gave a
response, its status code is 200 and reading the body gave no error; it then
returns the whole body. On a transport error, on a status code other than 200
and on a read error it returns the empty string and a non-nil error. -/
theorem getPageText_result (oc : HttpOutcome) (requestURL : GoString) :
    ((getPageText oc requestURL).2.2 = none ↔
      ∃ data, oc = .response statusOK ⟨data, none⟩) ∧
    (∀ data, oc = .response statusOK ⟨data, none⟩ →
      (getPageText oc requestURL).2 = (data, none)) ∧
    (∀ e, oc = .getErr e → (getPageText oc requestURL).2 = ([], some e)) ∧
    (∀ code body, oc = .response code body → code ≠ statusOK →
      (getPageText oc requestURL).2 =
        ([], some ⟨ascii "Wrong http response code received"⟩)) ∧
    (∀ data e, oc = .response statusOK ⟨data, some e⟩ →
      (getPageText oc requestURL).2 = ([], some e)) ∧
    ((getPageText oc requestURL).2.2 ≠ none → (getPageText oc requestURL).2.1 = []) := by
  refine ⟨?_, ?_, ?_, ?_, ?_, ?_⟩
  · cases oc with
    | getErr e => simp [getPageText]
    | response code body =>
      obtain ⟨data, err⟩ := body
      by_cases hc : code = statusOK
      · cases err <;> simp [getPageText, hc]
      · simp [getPageText, hc]
  · intro data h
    subst h
    simp [getPageText]
  · intro e h
    subst h
    simp [getPageText]
  · intro code body h hc
    subst h
    simp [getPageText, hc]
  · intro data e h
    subst h
    simp [getPageText]
  · cases oc with
    | getErr e => simp [getPageText]
    | response code body =>
      obtain ⟨data, err⟩ := body
      by_cases hc : code = statusOK
      · cases err <;> simp [getPageText, hc]
      · simp [getPageText, hc]

theorem getPageText_result_witness :
    (getPageText (.response 404 ⟨ascii "not found", none⟩) (ascii "http://a.test/p1")).2 =
      ([], some ⟨ascii "Wrong http response code received"⟩) ∧
    (getPageText (.response 200 ⟨ascii "Go is great", none⟩) (ascii "http://a.test/p1")).2 =
      (ascii "Go is great", none) ∧
    (getPageText (.response 200 ⟨ascii "Go is", some ⟨ascii "unexpected EOF"⟩⟩)
      (ascii "http://a.test/p1")).2 = ([], some ⟨ascii "unexpected EOF"⟩) ∧
    (getPageText (.getErr ⟨ascii "timeout"⟩) (ascii "http://a.test/p1")).2 =
      ([], some ⟨ascii "timeout"⟩) :=
  ⟨(getPageText_result (.response 404 ⟨ascii "not found", none⟩)
      (ascii "http://a.test/p1")).2.2.2.1 404 ⟨ascii "not found", none⟩ rfl (by decide),
   (getPageText_result (.response 200 ⟨ascii "Go is great", none⟩)
      (ascii "http://a.test/p1")).2.1 _ rfl,
   (getPageText_result (.response 200 ⟨ascii "Go is", some ⟨ascii "unexpected EOF"⟩⟩)
      (ascii "http://a.test/p1")).2.2.2.2.1 _ _ rfl,
   (getPageText_result (.getErr ⟨ascii "timeout"⟩) (ascii "http://a.test/p1")).2.2.1 _ rfl⟩

/-- C7, evaluated on a 404 response: `getPageText` returns after the log line
without closing the response body, whereas on a 200 response it closes the body
both when reading succeeds and when it fails. -/
theorem getPageText_wrong_status_body_not_closed :
    (getPageText (.response 404 ⟨ascii "not found", none⟩) (ascii "http://a.test/p1")).1 =
      [.get (ascii "http://a.test/p1"),
       .log (ascii "[http://a.test/p1] Wrong http response code=404 received\n")] ∧
    Event.closeBody ∉
      (getPageText (.response 404 ⟨ascii "not found", none⟩) (ascii "http://a.test/p1")).1 ∧
    Event.closeBody ∈
      (getPageText (.response 200 ⟨ascii "Go", none⟩) (ascii "http://a.test/p1")).1 ∧
    Event.closeBody ∈
      (getPageText (.response 200 ⟨ascii "G", some ⟨ascii "unexpected EOF"⟩⟩)
        (ascii "http://a.test/p1")).1 := by
  decide

theorem getPageText_events (oc : HttpOutcome) (u : GoString) :
    doneCount (getPageText oc u).1 = 0 ∧ sentCount (getPageText oc u).1 = 0 ∧
    sentSum (getPageText oc u).1 = 0 ∧
    (getPageText oc u).1.filter (fun e => isSend e || isPrint e) = [] ∧
    (getPageText oc u).1.length ≤ 4 := by
  cases oc with
  | getErr e => simp [getPageText, doneCount, sentCount, sentSum, isSend, isPrint]
  | response code body =>
    obtain ⟨data, err⟩ := body
    by_cases hc : code = statusOK
    · cases err <;> simp [getPageText, hc, doneCount, sentCount, sentSum, isSend, isPrint]
    · simp [getPageText, hc, doneCount, sentCount, sentSum, isSend, isPrint]

theorem doneCount_append (a b : List Event) : doneCount (a ++ b) = doneCount a + doneCount b := by
  induction a with
  | nil => simp [doneCount]
  | cons e t ih =>
    cases e <;> simp [doneCount, ih]
    omega

theorem sentCount_append (a b : List Event) : sentCount (a ++ b) = sentCount a + sentCount b := by
  induction a with
  | nil => simp [sentCount]
  | cons e t ih =>
    cases e <;> simp [sentCount, ih]
    omega

theorem sentSum_append (a b : List Event) : sentSum (a ++ b) = sentSum a + sentSum b := by
  induction a with
  | nil => simp [sentSum]
  | cons e t ih =>
    cases e <;> simp [sentSum, ih]
    omega

theorem findAndPrintLinesCount_ok (oc : HttpOutcome) (u w : GoString)
    (h : (getPageText oc u).2.2 = none) :
    findAndPrintLinesCount oc u w =
      (getPageText oc u).1 ++
        [.print (ascii "Count for " ++ u ++ ascii ": " ++
            fmtInt (stringsCount (getPageText oc u).2.1 w) ++ ascii "\n"),
         .send (stringsCount (getPageText oc u).2.1 w), .wgDone] := by
  unfold findAndPrintLinesCount
  simp [h]

theorem findAndPrintLinesCount_fail (oc : HttpOutcome) (u w : GoString) (e : GoError)
    (h : (getPageText oc u).2.2 = some e) :
    findAndPrintLinesCount oc u w = (getPageText oc u).1 ++ [.wgDone] := by
  unfold findAndPrintLinesCount
  simp [h]

/-- C3. One run of `findAndPrintLinesCount` calls `Done` on the wait group
exactly once and as its last effect, on both exit paths: right after
`getPageText` when it failed, and after the print and the send on `results`
when it succeeded. -/
theorem findAndPrintLinesCount_done_once (oc : HttpOutcome) (requestURL whatToFind : GoString) :
    doneCount (findAndPrintLinesCount oc requestURL whatToFind) = 1 ∧
    (findAndPrintLinesCount oc requestURL whatToFind).getLast? = some .wgDone ∧
    ((getPageText oc requestURL).2.2 ≠ none →
      findAndPrintLinesCount oc requestURL whatToFind =
        (getPageText oc requestURL).1 ++ [.wgDone]) ∧
    ((getPageText oc requestURL).2.2 = none →
      ∃ line n, findAndPrintLinesCount oc requestURL whatToFind =
        (getPageText oc requestURL).1 ++ [.print line, .send n, .wgDone]) := by
  have hev := getPageText_events oc requestURL
  cases h : (getPageText oc requestURL).2.2 with
  | none =>
    have hf := findAndPrintLinesCount_ok oc requestURL whatToFind h
    refine ⟨?_, ?_, ?_, ?_⟩
    · rw [hf, doneCount_append, hev.1]
      simp [doneCount]
    · rw [hf]
      simp
    · intro hc
      exact absurd rfl hc
    · intro _
      exact ⟨_, _, hf⟩
  | some e =>
    have hf := findAndPrintLinesCount_fail oc requestURL whatToFind e h
    refine ⟨?_, ?_, ?_, ?_⟩
    · rw [hf, doneCount_append, hev.1]
      simp [doneCount]
    · rw [hf]
      simp
    · intro _
      exact hf
    · intro hc
      simp at hc

theorem findAndPrintLinesCount_done_once_witness :
    (getPageText (.getErr ⟨ascii "timeout"⟩) (ascii "u")).2.2 ≠ none ∧
    findAndPrintLinesCount (.getErr ⟨ascii "timeout"⟩) (ascii "u") (ascii "Go") =
      (getPageText (.getErr ⟨ascii "timeout"⟩) (ascii "u")).1 ++ [.wgDone] ∧
    (getPageText (.response 200 ⟨ascii "Go", none⟩) (ascii "u")).2.2 = none ∧
    ∃ line n, findAndPrintLinesCount (.response 200 ⟨ascii "Go", none⟩) (ascii "u") (ascii "Go") =
      (getPageText (.response 200 ⟨ascii "Go", none⟩) (ascii "u")).1 ++
        [.print line, .send n, .wgDone] :=
  ⟨by decide,
   (findAndPrintLinesCount_done_once (.getErr ⟨ascii "timeout"⟩) (ascii "u")
      (ascii "Go")).2.2.1 (by decide),
   by decide,
   (findAndPrintLinesCount_done_once (.response 200 ⟨ascii "Go", none⟩) (ascii "u")
      (ascii "Go")).2.2.2 (by decide)⟩

/-- C4. `findAndPrintLinesCount` sends on `results` if and only if
`getPageText` succeeded. When it failed, the run sends nothing and prints no
line. When it succeeded, the run prints exactly one line
`Count for <url>: <n>` and then sends exactly one value `n`, where `n` is the
count of the pattern in the fetched text. -/
theorem findAndPrintLinesCount_push_iff (oc : HttpOutcome) (requestURL whatToFind : GoString) :
    (0 < sentCount (findAndPrintLinesCount oc requestURL whatToFind) ↔
      (getPageText oc requestURL).2.2 = none) ∧
    ((getPageText oc requestURL).2.2 ≠ none →
      (findAndPrintLinesCount oc requestURL whatToFind).filter
        (fun e => isSend e || isPrint e) = []) ∧
    ((getPageText oc requestURL).2.2 = none →
      (findAndPrintLinesCount oc requestURL whatToFind).filter
        (fun e => isSend e || isPrint e) =
        [.print (ascii "Count for " ++ requestURL ++ ascii ": " ++
            fmtInt (stringsCount (getPageText oc requestURL).2.1 whatToFind) ++ ascii "\n"),
         .send (stringsCount (getPageText oc requestURL).2.1 whatToFind)]) := by
  have hev := getPageText_events oc requestURL
  cases h : (getPageText oc requestURL).2.2 with
  | none =>
    have hf := findAndPrintLinesCount_ok oc requestURL whatToFind h
    refine ⟨?_, ?_, ?_⟩
    · rw [hf, sentCount_append, hev.2.1]
      simp [sentCount]
    · intro hc
      exact absurd rfl hc
    · intro _
      rw [hf, List.filter_append, hev.2.2.2.1]
      simp [isSend, isPrint]
  | some e =>
    have hf := findAndPrintLinesCount_fail oc requestURL whatToFind e h
    refine ⟨?_, ?_, ?_⟩
    · rw [hf, sentCount_append, hev.2.1]
      simp [sentCount]
    · intro _
      rw [hf, List.filter_append, hev.2.2.2.1]
      simp [isSend, isPrint]
    · intro hc
      simp at hc

theorem findAndPrintLinesCount_push_iff_witness :
    (getPageText (.response 404 ⟨ascii "Go", none⟩) (ascii "http://a.test/p1")).2.2 ≠ none ∧
    (findAndPrintLinesCount (.response 404 ⟨ascii "Go", none⟩) (ascii "http://a.test/p1")
      (ascii "Go")).filter (fun e => isSend e || isPrint e) = [] ∧
    (getPageText (.response 200 ⟨ascii "Go is great, Go is fun", none⟩)
      (ascii "http://a.test/p1")).2.2 = none ∧
    (findAndPrintLinesCount (.response 200 ⟨ascii "Go is great, Go is fun", none⟩)
      (ascii "http://a.test/p1") (ascii "Go")).filter (fun e => isSend e || isPrint e) =
      [.print (ascii "Count for http://a.test/p1: 2\n"), .send 2] :=
  ⟨by decide,
   (findAndPrintLinesCount_push_iff (.response 404 ⟨ascii "Go", none⟩)
      (ascii "http://a.test/p1") (ascii "Go")).2.1 (by decide),
   by decide,
   ((findAndPrintLinesCount_push_iff (.response 200 ⟨ascii "Go is great, Go is fun", none⟩)
      (ascii "http://a.test/p1") (ascii "Go")).2.2 (by decide)).trans (by decide)⟩

/-! ## The invariant of the concurrent system -/

theorem workersSum_append (f : List Event → Nat) (a b : List (List Event)) :
    workersSum f (a ++ b) = workersSum f a + workersSum f b := by
  simp [workersSum]

theorem workersSum_set (f : List Event → Nat) (ws : List (List Event)) (i : Nat)
    (w w1 : List Event) (hi : ws[i]? = some w) :
    workersSum f (ws.set i w1) + f w = workersSum f ws + f w1 := by
  induction ws generalizing i with
  | nil => simp at hi
  | cons x t ih =>
    cases i with
    | zero =>
      simp at hi
      subst hi
      simp [workersSum]
      omega
    | succ i =>
      simp at hi
      have := ih i hi
      simp [workersSum] at this ⊢
      omega

theorem workersSum_eq_zero (f : List Event → Nat) (ws : List (List Event))
    (h : ∀ w ∈ ws, f w = 0) : workersSum f ws = 0 := by
  induction ws with
  | nil => rfl
  | cons x t ih =>
    simp [workersSum] at ih ⊢
    exact ⟨h x (by simp), ih (fun w hw => h w (by simp [hw]))⟩

theorem workersSum_pos_of_mem (f : List Event → Nat) (ws : List (List Event))
    (w : List Event) (hw : w ∈ ws) : f w ≤ workersSum f ws := by
  induction ws with
  | nil => simp at hw
  | cons x t ih =>
    simp [workersSum] at ih ⊢
    rcases List.mem_cons.mp hw with h | h
    · subst h
      omega
    · have := ih h
      omega

theorem doneCount_pos_of_last (w : List Event) (h : w.getLast? = some .wgDone) :
    0 < doneCount w := by
  induction w with
  | nil => simp at h
  | cons e t ih =>
    cases t with
    | nil =>
      simp at h
      subst h
      simp [doneCount]
    | cons e2 t2 =>
      rw [List.getLast?_cons_cons] at h
      have h1 := ih h
      have h2 : doneCount (e2 :: t2) ≤ doneCount (e :: e2 :: t2) := by
        cases e <;> simp [doneCount]
      omega

theorem getLast?_tail_of_ne (e : Event) (rest : List Event) (hr : rest ≠ [])
    (h : (e :: rest).getLast? = some .wgDone) : rest.getLast? = some .wgDone := by
  cases rest with
  | nil => exact absurd rfl hr
  | cons e2 t2 => rwa [List.getLast?_cons_cons] at h

theorem expectedTotal_trace (cfg : Config) (k : Nat) (u : GoString) :
    sentSum (findAndPrintLinesCount (cfg.http k) u cfg.textToFind) =
      (match (getPageText (cfg.http k) u).2.2 with
       | none => stringsCount (getPageText (cfg.http k) u).2.1 cfg.textToFind
       | some _ => 0) := by
  have hev := getPageText_events (cfg.http k) u
  cases h : (getPageText (cfg.http k) u).2.2 with
  | none =>
    rw [findAndPrintLinesCount_ok _ _ _ h, sentSum_append, hev.2.2.1]
    simp [sentSum]
  | some e =>
    rw [findAndPrintLinesCount_fail _ _ _ e h, sentSum_append, hev.2.2.1]
    simp [sentSum]

theorem succeeded_trace (cfg : Config) (k : Nat) (u : GoString) :
    sentCount (findAndPrintLinesCount (cfg.http k) u cfg.textToFind) =
      (match (getPageText (cfg.http k) u).2.2 with
       | none => 1
       | some _ => 0) := by
  have hev := getPageText_events (cfg.http k) u
  cases h : (getPageText (cfg.http k) u).2.2 with
  | none =>
    rw [findAndPrintLinesCount_ok _ _ _ h, sentCount_append, hev.2.1]
    simp [sentCount]
  | some e =>
    rw [findAndPrintLinesCount_fail _ _ _ e h, sentCount_append, hev.2.1]
    simp [sentCount]

theorem trace_length_le (oc : HttpOutcome) (u w : GoString) :
    (findAndPrintLinesCount oc u w).length ≤ 6 := by
  cases oc with
  | getErr e => simp [findAndPrintLinesCount, getPageText]
  | response code body =>
    obtain ⟨data, err⟩ := body
    by_cases hc : code = statusOK
    · cases err <;> simp [findAndPrintLinesCount, getPageText, hc]
    · simp [findAndPrintLinesCount, getPageText, hc]

theorem inv_init (cfg : Config) : Inv cfg (init cfg) := by
  constructor <;> simp [init, workersSum]

theorem trace_ends_done (oc : HttpOutcome) (u w : GoString) :
    doneCount (findAndPrintLinesCount oc u w) = 1 ∧
    (findAndPrintLinesCount oc u w).getLast? = some .wgDone := by
  have hev := getPageText_events oc u
  cases h : (getPageText oc u).2.2 with
  | none =>
    rw [findAndPrintLinesCount_ok _ _ _ h, doneCount_append, hev.1]
    simp [doneCount]
  | some e =>
    rw [findAndPrintLinesCount_fail _ _ _ e h, doneCount_append, hev.1]
    simp [doneCount]

theorem inv_sendTask (cfg : Config) (s s1 : State) (h : Inv cfg s)
    (hs : stepSendTask cfg s = some s1) : Inv cfg s1 := by
  unfold stepSendTask at hs
  split at hs
  · simp at hs
  · rename_i u rest hin
    split at hs
    · rename_i hg
      simp only [Option.some.injEq] at hs
      subst hs
      have h1 := h.urls
      have h2 := h.sum
      have h3 := h.recv
      rw [hin] at h1 h2 h3
      constructor
      case urls => simpa using h1
      case spawned => exact h.spawned
      case sum => simpa using h2
      case recv => simpa using h3
      case wg => exact h.wg
      case endsDone => exact h.endsDone
      case chanClosed =>
        intro ht
        have := h.chanClosed ht
        simp [hin] at this
      case observed =>
        intro ht
        have := h.observed ht
        simp [hg.1] at this
      case closers => exact h.closers
      case woken => exact h.woken
      case closed => exact h.closed
      case panics => exact h.panics
      case pc => exact h.pc
      case total => exact h.total
    · simp at hs

theorem inv_closeTasks (cfg : Config) (s s1 : State) (h : Inv cfg s)
    (hs : stepCloseTasks cfg s = some s1) : Inv cfg s1 := by
  unfold stepCloseTasks at hs
  split at hs
  · rename_i hg
    simp only [Option.some.injEq] at hs
    subst hs
    constructor
    case urls => exact h.urls
    case spawned => exact h.spawned
    case sum => exact h.sum
    case recv => exact h.recv
    case wg => exact h.wg
    case endsDone => exact h.endsDone
    case chanClosed => exact fun _ => hg.1
    case observed =>
      intro ht
      have := h.observed ht
      simp [hg.2.1] at this
    case closers => exact h.closers
    case woken => exact h.woken
    case closed => exact h.closed
    case panics => exact h.panics
    case pc => exact h.pc
    case total => exact h.total
  · simp at hs

theorem closers_nonempty_observed (cfg : Config) (s : State) (h : Inv cfg s)
    (c : CloserPc) (hc : c ∈ s.closers) :
    s.tasksClosed = true ∧ s.tasksChanClosed = true ∧ s.queue = [] ∧ s.input = [] ∧
    s.closers = [c] := by
  rcases h.closers with ⟨h1, _⟩ | ⟨⟨c1, h1⟩, h2⟩
  · simp [h1] at hc
  · have h3 := h.observed h2
    have h4 : c = c1 := by simpa [h1] using hc
    exact ⟨h2, h3.1, h3.2, h.chanClosed h3.1, by rw [h1, h4]⟩

theorem inv_recvTask (cfg : Config) (s s1 : State) (h : Inv cfg s)
    (hs : stepRecvTask cfg s = some s1) : Inv cfg s1 := by
  simp only [stepRecvTask, startDispatcher] at hs
  split at hs
  · simp at hs
  · split at hs
    · rename_i u rest hq
      simp only [Option.some.injEq] at hs
      subst hs
      have h1 := h.urls
      have h2 := h.sum
      have h3 := h.recv
      rw [hq] at h1 h2 h3
      have htr := trace_ends_done (cfg.http s.workers.length) u cfg.textToFind
      have hnc : ∀ c, c ∈ s.closers → False := by
        intro c hc
        have := (closers_nonempty_observed cfg s h c hc).2.2.1
        simp [hq] at this
      constructor
      case urls =>
        show List.drop (s.workers ++ [_]).length cfg.urls = rest ++ s.input
        have : (s.workers ++ [findAndPrintLinesCount (cfg.http s.workers.length) u
            cfg.textToFind]).length = s.workers.length + 1 := by simp
        rw [this, ← List.tail_drop, h1]
        rfl
      case spawned =>
        show (s.workers ++ [_]).length ≤ cfg.urls.length
        have := congrArg List.length h1
        simp at this ⊢
        omega
      case sum =>
        show s.totalFound + workersSum sentSum (s.workers ++ [_]) +
          expectedTotal cfg (s.workers ++ [_]).length (rest ++ s.input) = _
        rw [workersSum_append]
        simp only [List.cons_append, expectedTotal] at h2
        rw [← expectedTotal_trace] at h2
        simp [workersSum] at h2 ⊢
        omega
      case recv =>
        show s.received + workersSum sentCount (s.workers ++ [_]) +
          succeeded cfg (s.workers ++ [_]).length (rest ++ s.input) = _
        rw [workersSum_append]
        simp only [List.cons_append, succeeded] at h3
        rw [← succeeded_trace] at h3
        simp [workersSum] at h3 ⊢
        omega
      case wg =>
        show s.wg + 1 = ((workersSum doneCount (s.workers ++ [_]) : Nat) : Int)
        rw [workersSum_append, h.wg]
        simp [workersSum, htr.1]
      case endsDone =>
        intro w hw hne
        rcases List.mem_append.mp hw with hw | hw
        · exact h.endsDone w hw hne
        · simp at hw
          rw [hw]
          exact htr.2
      case chanClosed => exact h.chanClosed
      case observed =>
        intro ht
        have := (h.observed ht).2
        simp [hq] at this
      case closers => exact h.closers
      case woken =>
        intro c hc
        exact absurd (hnc c hc) id
      case closed => exact h.closed
      case panics => exact h.panics
      case pc => exact h.pc
      case total => exact h.total
    · rename_i hq
      split at hs
      · simp at hs
      · rename_i htc
        split at hs
        · rename_i hobs
          simp only [Option.some.injEq] at hs
          subst hs
          have hcl : s.closers = [] := by
            rcases h.closers with ⟨h1, _⟩ | ⟨_, h2⟩
            · exact h1
            · simp [hobs] at h2
          constructor
          case urls => exact h.urls
          case spawned => exact h.spawned
          case sum => exact h.sum
          case recv => exact h.recv
          case wg => exact h.wg
          case endsDone => exact h.endsDone
          case chanClosed => exact h.chanClosed
          case observed =>
            intro _
            exact ⟨by simpa using htc, hq⟩
          case closers =>
            right
            exact ⟨⟨.waiting, by simp [hcl]⟩, rfl⟩
          case woken =>
            intro c hc hne
            simp [hcl] at hc
            exact absurd hc hne
          case closed =>
            show s.resultsClosed = List.count CloserPc.finished (s.closers ++ [CloserPc.waiting])
            rw [h.closed, hcl]
            decide
          case panics => exact h.panics
          case pc => exact h.pc
          case total => exact h.total
        · simp only [Option.some.injEq] at hs
          subst hs
          exact h

theorem workers_empty_of_wg_zero (cfg : Config) (s : State) (h : Inv cfg s)
    (hz : s.wg = 0) : ∀ w ∈ s.workers, w = [] := by
  intro w hw
  by_contra hne
  have h1 := doneCount_pos_of_last w (h.endsDone w hw hne)
  have h2 := workersSum_pos_of_mem doneCount s.workers w hw
  have h3 := h.wg
  omega

theorem no_closer_past_wait (cfg : Config) (s : State) (h : Inv cfg s) (i : Nat)
    (e : Event) (rest : List Event) (hw : s.workers[i]? = some (e :: rest)) :
    ∀ c ∈ s.closers, c = .waiting := by
  intro c hc
  by_contra hne
  have := h.woken c hc hne (e :: rest) (List.getElem?_mem hw)
  simp at this

theorem results_open_of_worker (cfg : Config) (s : State) (h : Inv cfg s) (i : Nat)
    (e : Event) (rest : List Event) (hw : s.workers[i]? = some (e :: rest)) :
    s.resultsClosed = 0 := by
  rw [h.closed]
  apply List.count_eq_zero.mpr
  intro hf
  have := no_closer_past_wait cfg s h i e rest hw _ hf
  simp at this

/-- Worker `i` passes over its next effect `e`; `tf`, `r` and `g` are the new
values of `totalFound`, `received` and the wait-group counter. -/
theorem inv_advance (cfg : Config) (s : State) (h : Inv cfg s) (i : Nat)
    (e : Event) (rest : List Event) (hw : s.workers[i]? = some (e :: rest))
    (tf r : Nat) (g : Int)
    (htf : tf + sentSum rest = s.totalFound + sentSum (e :: rest))
    (hpc : s.pc ≠ .select → tf = s.totalFound)
    (hr : r + sentCount rest = s.received + sentCount (e :: rest))
    (hg : g + doneCount (e :: rest) = s.wg + doneCount rest) :
    Inv cfg { s with workers := s.workers.set i rest, totalFound := tf, received := r,
                     wg := g } := by
  have hnc := no_closer_past_wait cfg s h i e rest hw
  have hlen : (s.workers.set i rest).length = s.workers.length := List.length_set _ _ _
  constructor
  case urls =>
    show List.drop (s.workers.set i rest).length cfg.urls = _
    rw [hlen]
    exact h.urls
  case spawned =>
    show (s.workers.set i rest).length ≤ _
    rw [hlen]
    exact h.spawned
  case sum =>
    show tf + workersSum sentSum (s.workers.set i rest) +
      expectedTotal cfg (s.workers.set i rest).length (s.queue ++ s.input) = _
    rw [hlen]
    have h1 := workersSum_set sentSum s.workers i (e :: rest) rest hw
    have h2 := h.sum
    omega
  case recv =>
    show r + workersSum sentCount (s.workers.set i rest) +
      succeeded cfg (s.workers.set i rest).length (s.queue ++ s.input) = _
    rw [hlen]
    have h1 := workersSum_set sentCount s.workers i (e :: rest) rest hw
    have h2 := h.recv
    omega
  case wg =>
    show g = ((workersSum doneCount (s.workers.set i rest) : Nat) : Int)
    have h1 := workersSum_set doneCount s.workers i (e :: rest) rest hw
    have h2 := h.wg
    omega
  case endsDone =>
    intro w hm hne
    rcases List.mem_or_eq_of_mem_set hm with hm | hm
    · exact h.endsDone w hm hne
    · subst hm
      exact getLast?_tail_of_ne e w hne
        (h.endsDone (e :: w) (List.getElem?_mem hw) (by simp))
  case chanClosed => exact h.chanClosed
  case observed => exact h.observed
  case closers => exact h.closers
  case woken =>
    intro c hc hne
    exact absurd (hnc c hc) hne
  case closed => exact h.closed
  case panics => exact h.panics
  case pc => exact h.pc
  case total =>
    refine ⟨?_, h.total.2⟩
    intro hp
    show s.total = [tf]
    rw [hpc (by rw [hp]; decide)]
    exact h.total.1 hp

theorem inv_recvResult (cfg : Config) (s s1 : State) (i : Nat) (h : Inv cfg s)
    (hs : stepRecvResult cfg s i = some s1) : Inv cfg s1 := by
  simp only [stepRecvResult, startDispatcher] at hs
  split at hs
  · simp at hs
  · rename_i hg
    split at hs
    · rename_i n rest hw
      simp only [Option.some.injEq] at hs
      subst hs
      have hp : s.pc = .select := by
        by_contra hc
        exact hg (Or.inl hc)
      exact inv_advance cfg s h i (.send n) rest hw (s.totalFound + n) (s.received + 1) s.wg
        (by simp [sentSum]; omega) (fun hc => absurd hp hc) (by simp [sentCount]; omega)
        (by simp [doneCount])
    · simp at hs

theorem inv_recvClosed (cfg : Config) (s s1 : State) (h : Inv cfg s)
    (hs : stepRecvClosed cfg s = some s1) : Inv cfg s1 := by
  simp only [stepRecvClosed, startDispatcher] at hs
  split at hs
  · rename_i hg
    simp only [Option.some.injEq] at hs
    subst hs
    constructor
    case urls => exact h.urls
    case spawned => exact h.spawned
    case sum => exact h.sum
    case recv => exact h.recv
    case wg => exact h.wg
    case endsDone => exact h.endsDone
    case chanClosed => exact h.chanClosed
    case observed => exact h.observed
    case closers => exact h.closers
    case woken => exact h.woken
    case closed => exact h.closed
    case panics => exact h.panics
    case pc => exact fun _ => hg.2
    case total =>
      refine ⟨fun hc => ?_, fun _ => h.total.2 (by rw [hg.1]; decide)⟩
      simp at hc
  · simp at hs

theorem inv_deliver (cfg : Config) (s s1 : State) (h : Inv cfg s)
    (hs : stepDeliver s = some s1) : Inv cfg s1 := by
  unfold stepDeliver at hs
  split at hs
  · rename_i hg
    simp only [Option.some.injEq] at hs
    subst hs
    have ht : s.total = [] := h.total.2 (by rw [hg.1]; decide)
    constructor
    case urls => exact h.urls
    case spawned => exact h.spawned
    case sum => exact h.sum
    case recv => exact h.recv
    case wg => exact h.wg
    case endsDone => exact h.endsDone
    case chanClosed => exact h.chanClosed
    case observed => exact h.observed
    case closers => exact h.closers
    case woken => exact h.woken
    case closed => exact h.closed
    case panics => exact h.panics
    case pc => exact fun _ => h.pc (by rw [hg.1]; decide)
    case total =>
      refine ⟨fun _ => ?_, fun hc => ?_⟩
      · show s.total ++ [s.totalFound] = [s.totalFound]
        rw [ht]
        rfl
      · simp at hc
  · simp at hs

theorem inv_worker (cfg : Config) (s s1 : State) (i : Nat) (h : Inv cfg s)
    (hs : stepWorker s i = some s1) : Inv cfg s1 := by
  cases hw : s.workers[i]? with
  | none => simp [stepWorker, hw] at hs
  | some w =>
    cases w with
    | nil => simp [stepWorker, hw] at hs
    | cons e rest =>
      have hopen := results_open_of_worker cfg s h i e rest hw
      have hpos : (1 : Int) ≤ s.wg ∨ e ≠ .wgDone := by
        by_cases he : e = .wgDone
        · left
          subst he
          have h1 := workersSum_pos_of_mem doneCount s.workers _ (List.getElem?_mem hw)
          have h2 := h.wg
          simp [doneCount] at h1
          omega
        · exact Or.inr he
      cases e with
      | send n => simp [stepWorker, hw, hopen] at hs
      | wgDone =>
        have h1 : (1 : Int) ≤ s.wg := by
          rcases hpos with h1 | h1
          · exact h1
          · exact absurd rfl h1
        have h2 : ¬ (s.wg - 1 < 0) := by omega
        simp only [stepWorker, hw, h2, if_false, Option.some.injEq] at hs
        subst hs
        exact inv_advance cfg s h i .wgDone rest hw s.totalFound s.received (s.wg - 1)
          (by simp [sentSum]) (fun _ => rfl) (by simp [sentCount])
          (by simp [doneCount]; omega)
      | get u =>
        simp only [stepWorker, hw, Option.some.injEq] at hs
        subst hs
        exact inv_advance cfg s h i _ rest hw s.totalFound s.received s.wg
          (by simp [sentSum]) (fun _ => rfl) (by simp [sentCount]) (by simp [doneCount])
      | log l =>
        simp only [stepWorker, hw, Option.some.injEq] at hs
        subst hs
        exact inv_advance cfg s h i _ rest hw s.totalFound s.received s.wg
          (by simp [sentSum]) (fun _ => rfl) (by simp [sentCount]) (by simp [doneCount])
      | readAll =>
        simp only [stepWorker, hw, Option.some.injEq] at hs
        subst hs
        exact inv_advance cfg s h i _ rest hw s.totalFound s.received s.wg
          (by simp [sentSum]) (fun _ => rfl) (by simp [sentCount]) (by simp [doneCount])
      | closeBody =>
        simp only [stepWorker, hw, Option.some.injEq] at hs
        subst hs
        exact inv_advance cfg s h i _ rest hw s.totalFound s.received s.wg
          (by simp [sentSum]) (fun _ => rfl) (by simp [sentCount]) (by simp [doneCount])
      | print l =>
        simp only [stepWorker, hw, Option.some.injEq] at hs
        subst hs
        exact inv_advance cfg s h i _ rest hw s.totalFound s.received s.wg
          (by simp [sentSum]) (fun _ => rfl) (by simp [sentCount]) (by simp [doneCount])

theorem inv_closer (cfg : Config) (s s1 : State) (j : Nat) (h : Inv cfg s)
    (hs : stepCloser s j = some s1) : Inv cfg s1 := by
  cases hc : s.closers[j]? with
  | none => simp [stepCloser, hc] at hs
  | some c =>
    have hmem : c ∈ s.closers := List.getElem?_mem hc
    have hobs := closers_nonempty_observed cfg s h c hmem
    have hj : j = 0 := by
      rw [hobs.2.2.2.2] at hc
      cases j with
      | zero => rfl
      | succ j => simp at hc
    subst hj
    have hset : ∀ c1, s.closers.set 0 c1 = [c1] := by
      intro c1
      rw [hobs.2.2.2.2]
      rfl
    have hcl := h.closed
    rw [hobs.2.2.2.2] at hcl
    cases c with
    | finished => simp [stepCloser, hc] at hs
    | waiting =>
      simp only [stepCloser, hc] at hs
      split at hs
      · rename_i hz
        simp only [Option.some.injEq] at hs
        subst hs
        constructor
        case urls => exact h.urls
        case spawned => exact h.spawned
        case sum => exact h.sum
        case recv => exact h.recv
        case wg => exact h.wg
        case endsDone => exact h.endsDone
        case chanClosed => exact h.chanClosed
        case observed => exact h.observed
        case closers =>
          right
          exact ⟨⟨.closing, hset _⟩, hobs.1⟩
        case woken => exact fun _ _ _ => workers_empty_of_wg_zero cfg s h hz
        case closed =>
          show s.resultsClosed = List.count CloserPc.finished (s.closers.set 0 .closing)
          rw [hset, hcl]
          decide
        case panics => exact h.panics
        case pc => exact h.pc
        case total => exact h.total
      · simp at hs
    | closing =>
      have hrc : s.resultsClosed = 0 := by
        rw [hcl]
        decide
      simp only [stepCloser, hc, hrc, ne_eq, not_true_eq_false, if_false,
        Option.some.injEq] at hs
      subst hs
      constructor
      case urls => exact h.urls
      case spawned => exact h.spawned
      case sum => exact h.sum
      case recv => exact h.recv
      case wg => exact h.wg
      case endsDone => exact h.endsDone
      case chanClosed => exact h.chanClosed
      case observed => exact h.observed
      case closers =>
        right
        exact ⟨⟨.finished, hset _⟩, hobs.1⟩
      case woken => exact fun _ _ _ => h.woken .closing hmem (by decide)
      case closed =>
        show 0 + 1 = List.count CloserPc.finished (s.closers.set 0 .finished)
        rw [hset]
        decide
      case panics => exact h.panics
      case pc => exact fun _ => by simp
      case total => exact h.total

theorem inv_step (cfg : Config) (s s1 : State) (a : Action) (h : Inv cfg s)
    (hs : step cfg s a = some s1) : Inv cfg s1 := by
  cases a with
  | sendTask => exact inv_sendTask cfg s s1 h hs
  | closeTasks => exact inv_closeTasks cfg s s1 h hs
  | recvTask => exact inv_recvTask cfg s s1 h hs
  | recvResult i => exact inv_recvResult cfg s s1 i h hs
  | recvClosed => exact inv_recvClosed cfg s s1 h hs
  | deliver => exact inv_deliver cfg s s1 h hs
  | worker i => exact inv_worker cfg s s1 i h hs
  | closer j => exact inv_closer cfg s s1 j h hs

theorem reachable_inv (cfg : Config) (s : State) (h : Reachable cfg s) : Inv cfg s := by
  induction h with
  | init => exact inv_init cfg
  | step a _ hs ih => exact inv_step cfg _ _ a ih hs

/-! ## Progress -/

theorem sum_map_set {α : Type} (f : α → Nat) (l : List α) (i : Nat) (a b : α)
    (hi : l[i]? = some a) : ((l.set i b).map f).sum + f a = (l.map f).sum + f b := by
  induction l generalizing i with
  | nil => simp at hi
  | cons x t ih =>
    cases i with
    | zero =>
      simp at hi
      subst hi
      simp
      omega
    | succ i =>
      simp at hi
      have := ih i hi
      simp at this ⊢
      omega

theorem measure_sendTask (cfg : Config) (s s1 : State)
    (hs : stepSendTask cfg s = some s1) : measure s1 < measure s := by
  unfold stepSendTask at hs
  split at hs
  · simp at hs
  · rename_i u rest hin
    split at hs
    · simp only [Option.some.injEq] at hs
      subst hs
      simp [measure, hin]
      omega
    · simp at hs

theorem measure_closeTasks (cfg : Config) (s s1 : State)
    (hs : stepCloseTasks cfg s = some s1) : measure s1 < measure s := by
  unfold stepCloseTasks at hs
  split at hs
  · rename_i hg
    simp only [Option.some.injEq] at hs
    subst hs
    simp [measure, hg.2.1]
  · simp at hs

theorem measure_recvTask (cfg : Config) (s s1 : State)
    (hs : stepRecvTask cfg s = some s1) :
    (s.tasksClosed = true ∧ s.queue = [] ∧ s1 = s) ∨ measure s1 < measure s := by
  simp only [stepRecvTask, startDispatcher] at hs
  split at hs
  · simp at hs
  · split at hs
    · rename_i u rest hq
      simp only [Option.some.injEq] at hs
      subst hs
      right
      have := trace_length_le (cfg.http s.workers.length) u cfg.textToFind
      simp [measure, hq]
      omega
    · rename_i hq
      split at hs
      · simp at hs
      · split at hs
        · rename_i hobs
          simp only [Option.some.injEq] at hs
          subst hs
          right
          simp [measure, hobs, closerWeight]
          omega
        · rename_i hobs
          simp only [Option.some.injEq] at hs
          left
          exact ⟨by simpa using hobs, hq, hs.symm⟩

theorem measure_recvResult (cfg : Config) (s s1 : State) (i : Nat)
    (hs : stepRecvResult cfg s i = some s1) : measure s1 < measure s := by
  simp only [stepRecvResult, startDispatcher] at hs
  split at hs
  · simp at hs
  · split at hs
    · rename_i n rest hw
      simp only [Option.some.injEq] at hs
      subst hs
      have := sum_map_set List.length s.workers i _ rest hw
      simp [measure] at this ⊢
      omega
    · simp at hs

theorem measure_recvClosed (cfg : Config) (s s1 : State)
    (hs : stepRecvClosed cfg s = some s1) : measure s1 < measure s := by
  simp only [stepRecvClosed, startDispatcher] at hs
  split at hs
  · rename_i hg
    simp only [Option.some.injEq] at hs
    subst hs
    simp [measure, hg.1, pcWeight]
  · simp at hs

theorem measure_deliver (s s1 : State)
    (hs : stepDeliver s = some s1) : measure s1 < measure s := by
  unfold stepDeliver at hs
  split at hs
  · rename_i hg
    simp only [Option.some.injEq] at hs
    subst hs
    simp [measure, hg.1, pcWeight]
  · simp at hs

theorem measure_worker (s s1 : State) (i : Nat)
    (hs : stepWorker s i = some s1) : measure s1 < measure s := by
  cases hw : s.workers[i]? with
  | none => simp [stepWorker, hw] at hs
  | some w =>
    cases w with
    | nil => simp [stepWorker, hw] at hs
    | cons e rest =>
      have := sum_map_set List.length s.workers i _ rest hw
      cases e <;> simp only [stepWorker, hw] at hs
      case send n =>
        split at hs
        · simp only [Option.some.injEq] at hs
          subst hs
          simp [measure] at this ⊢
          omega
        · simp at hs
      all_goals
        simp only [Option.some.injEq] at hs
        subst hs
        simp [measure] at this ⊢
        omega

theorem measure_closer (s s1 : State) (j : Nat)
    (hs : stepCloser s j = some s1) : measure s1 < measure s := by
  cases hc : s.closers[j]? with
  | none => simp [stepCloser, hc] at hs
  | some c =>
    cases c with
    | finished => simp [stepCloser, hc] at hs
    | waiting =>
      have := sum_map_set closerWeight s.closers j _ .closing hc
      simp only [stepCloser, hc] at hs
      split at hs
      · simp only [Option.some.injEq] at hs
        subst hs
        simp [measure, closerWeight] at this ⊢
        omega
      · simp at hs
    | closing =>
      have := sum_map_set closerWeight s.closers j _ .finished hc
      simp only [stepCloser, hc, Option.some.injEq] at hs
      subst hs
      simp [measure, closerWeight] at this ⊢
      omega

theorem measure_step (cfg : Config) (s s1 : State) (a : Action)
    (hs : step cfg s a = some s1) :
    (a = .recvTask ∧ s.tasksClosed = true ∧ s.queue = [] ∧ s1 = s) ∨
      measure s1 < measure s := by
  cases a with
  | sendTask => exact Or.inr (measure_sendTask cfg s s1 hs)
  | closeTasks => exact Or.inr (measure_closeTasks cfg s s1 hs)
  | recvTask =>
    rcases measure_recvTask cfg s s1 hs with h | h
    · exact Or.inl ⟨rfl, h⟩
    · exact Or.inr h
  | recvResult i => exact Or.inr (measure_recvResult cfg s s1 i hs)
  | recvClosed => exact Or.inr (measure_recvClosed cfg s s1 hs)
  | deliver => exact Or.inr (measure_deliver s s1 hs)
  | worker i => exact Or.inr (measure_worker s s1 i hs)
  | closer j => exact Or.inr (measure_closer s s1 j hs)

theorem progress_of_enabled (cfg : Config) (s : State) (a : Action)
    (hen : step cfg s a ≠ none) (hns : a = .recvTask → s.tasksClosed = true → s.queue ≠ []) :
    ∃ a s1, step cfg s a = some s1 ∧ measure s1 < measure s := by
  cases hst : step cfg s a with
  | none => exact absurd hst hen
  | some s1 =>
    refine ⟨a, s1, hst, ?_⟩
    rcases measure_step cfg s s1 a hst with ⟨h1, h2, h3, _⟩ | h
    · exact absurd h3 (hns h1 h2)
    · exact h

theorem progress (cfg : Config) (s : State) (h : Inv cfg s) (hp : s.pc ≠ .returned) :
    ∃ a s1, step cfg s a = some s1 ∧ measure s1 < measure s := by
  by_cases hall : ∀ w ∈ s.workers, w = []
  · cases hpc : s.pc with
    | returned => exact absurd hpc hp
    | sendTotal =>
      have hrc : s.resultsClosed ≠ 0 := h.pc (by rw [hpc]; decide)
      rw [h.closed] at hrc
      have hmem : CloserPc.finished ∈ s.closers := by
        by_contra hc
        exact hrc (List.count_eq_zero.mpr hc)
      have hobs := closers_nonempty_observed cfg s h _ hmem
      apply progress_of_enabled cfg s .deliver
      · simp [step, stepDeliver, hpc, hobs.2.1]
      · intro hc
        simp at hc
    | select =>
      cases hq : s.queue with
      | cons u rest =>
        apply progress_of_enabled cfg s .recvTask
        · simp [step, stepRecvTask, startDispatcher, hpc, hq]
        · intro _ _
          simp [hq]
      | nil =>
        cases hin : s.input with
        | cons u rest =>
          have htc : s.tasksChanClosed = false := by
            cases hc : s.tasksChanClosed with
            | false => rfl
            | true =>
              have := h.chanClosed hc
              simp [hin] at this
          apply progress_of_enabled cfg s .sendTask
          · simp [step, stepSendTask, hin, htc, hq]
          · intro hc
            simp at hc
        | nil =>
          cases htc : s.tasksChanClosed with
          | false =>
            apply progress_of_enabled cfg s .closeTasks
            · simp [step, stepCloseTasks, hin, htc, hq]
            · intro hc
              simp at hc
          | true =>
            cases hobs : s.tasksClosed with
            | false =>
              apply progress_of_enabled cfg s .recvTask
              · simp [step, stepRecvTask, startDispatcher, hpc, hq, htc, hobs]
              · intro _ hc
                rw [hobs] at hc
                exact absurd hc (by decide)
            | true =>
              have hcl : ∃ c, s.closers = [c] := by
                rcases h.closers with ⟨_, h2⟩ | ⟨h1, _⟩
                · simp [hobs] at h2
                · exact h1
              obtain ⟨c, hcl⟩ := hcl
              have hwg : s.wg = 0 := by
                rw [h.wg, workersSum_eq_zero doneCount s.workers
                  (fun w hw => by rw [hall w hw]; rfl)]
                rfl
              cases c with
              | waiting =>
                apply progress_of_enabled cfg s (.closer 0)
                · simp [step, stepCloser, hcl, hwg]
                · intro hc
                  simp at hc
              | closing =>
                apply progress_of_enabled cfg s (.closer 0)
                · simp [step, stepCloser, hcl]
                · intro hc
                  simp at hc
              | finished =>
                have hrc : s.resultsClosed ≠ 0 := by
                  rw [h.closed, hcl]
                  decide
                apply progress_of_enabled cfg s .recvClosed
                · simp [step, stepRecvClosed, hpc, hrc]
                · intro hc
                  simp at hc
  · have hex : ∃ w ∈ s.workers, w ≠ [] := by
      by_contra hc
      apply hall
      intro w hw
      by_contra hne
      exact hc ⟨w, hw, hne⟩
    obtain ⟨w, hw, hne⟩ := hex
    obtain ⟨i, hi⟩ := List.mem_iff_getElem?.mp hw
    cases w with
    | nil => exact absurd rfl hne
    | cons e rest =>
      have hopen := results_open_of_worker cfg s h i e rest hi
      have hpc : s.pc = .select := by
        by_contra hc
        exact h.pc hc hopen
      by_cases hsend : ∃ n, e = .send n
      · obtain ⟨n, hn⟩ := hsend
        subst hn
        apply progress_of_enabled cfg s (.recvResult i)
        · simp [step, stepRecvResult, hpc, hopen, hi]
        · intro hc
          simp at hc
      · apply progress_of_enabled cfg s (.worker i)
        · cases e with
          | send n => exact absurd ⟨n, rfl⟩ hsend
          | _ => simp [step, stepWorker, hi]
        · intro hc
          simp at hc

theorem reachable_run (cfg : Config) (s s1 : State) (as : List Action)
    (h : Reachable cfg s) (hr : run cfg s as = some s1) : Reachable cfg s1 := by
  induction as generalizing s with
  | nil =>
    simp [run] at hr
    subst hr
    exact h
  | cons a as ih =>
    simp only [run] at hr
    cases hst : step cfg s a with
    | none => simp [hst] at hr
    | some s3 =>
      simp only [hst] at hr
      exact ih s3 (Reachable.step a h hst) hr

theorem reachable_of_run (cfg : Config) (s1 : State) (as : List Action)
    (hr : run cfg (init cfg) as = some s1) : Reachable cfg s1 :=
  reachable_run cfg _ s1 as Reachable.init hr

theorem inv_run (cfg : Config) (s s1 : State) (as : List Action)
    (h : Inv cfg s) (hr : run cfg s as = some s1) : Inv cfg s1 := by
  induction as generalizing s with
  | nil =>
    simp [run] at hr
    subst hr
    exact h
  | cons a as ih =>
    simp only [run] at hr
    cases hst : step cfg s a with
    | none => simp [hst] at hr
    | some s3 =>
      simp only [hst] at hr
      exact ih s3 (inv_step cfg s s3 a h hst) hr

/-- From every state that satisfies the invariant some schedule makes
`startDispatcher` return. -/
theorem can_return (cfg : Config) (n : Nat) (s : State) (h : Inv cfg s)
    (hn : measure s ≤ n) : ∃ as s1, run cfg s as = some s1 ∧ s1.pc = .returned := by
  induction n generalizing s with
  | zero =>
    by_cases hp : s.pc = .returned
    · exact ⟨[], s, rfl, hp⟩
    · obtain ⟨a, s1, _, hlt⟩ := progress cfg s h hp
      omega
  | succ n ih =>
    by_cases hp : s.pc = .returned
    · exact ⟨[], s, rfl, hp⟩
    · obtain ⟨a, s1, hst, hlt⟩ := progress cfg s h hp
      obtain ⟨as, s2, hr, hret⟩ := ih s1 (inv_step cfg s s1 a h hst) (by omega)
      refine ⟨a :: as, s2, ?_, hret⟩
      simp [run, hst, hr]

/-- What holds when `total` has received a value. -/
theorem delivered_facts (cfg : Config) (s : State) (h : Inv cfg s) (ht : s.total ≠ []) :
    s.pc = .returned ∧ s.total = [s.totalFound] ∧ s.wg = 0 ∧ (∀ w ∈ s.workers, w = []) ∧
    s.workers.length = cfg.urls.length ∧ s.queue = [] ∧ s.input = [] ∧
    s.totalFound = expectedTotal cfg 0 cfg.urls ∧
    s.received = succeeded cfg 0 cfg.urls ∧ s.closers = [.finished] := by
  have hpc : s.pc = .returned := by
    by_contra hc
    exact ht (h.total.2 hc)
  have hrc : s.resultsClosed ≠ 0 := h.pc (by rw [hpc]; decide)
  rw [h.closed] at hrc
  have hmem : CloserPc.finished ∈ s.closers := by
    by_contra hc
    exact hrc (List.count_eq_zero.mpr hc)
  have hobs := closers_nonempty_observed cfg s h _ hmem
  have hall : ∀ w ∈ s.workers, w = [] := h.woken _ hmem (by decide)
  have hurls := h.urls
  rw [hobs.2.2.1, hobs.2.2.2.1] at hurls
  have hlen : cfg.urls.length ≤ s.workers.length := by
    have := List.drop_eq_nil_iff.mp hurls
    exact this
  have hs1 := workersSum_eq_zero sentSum s.workers (fun w hw => by rw [hall w hw]; rfl)
  have hs2 := workersSum_eq_zero sentCount s.workers (fun w hw => by rw [hall w hw]; rfl)
  have hs3 := workersSum_eq_zero doneCount s.workers (fun w hw => by rw [hall w hw]; rfl)
  have hsum := h.sum
  have hrecv := h.recv
  rw [hobs.2.2.1, hobs.2.2.2.1] at hsum hrecv
  simp only [List.append_nil, expectedTotal, succeeded] at hsum hrecv
  refine ⟨hpc, h.total.1 hpc, ?_, hall, ?_, hobs.2.2.1, hobs.2.2.2.1, ?_, ?_, hobs.2.2.2.2⟩
  · rw [h.wg, hs3]
    rfl
  · have := h.spawned
    omega
  · omega
  · omega

/-! ## The dispatcher -/

theorem twoPages_run :
    run twoPages (init twoPages) twoPagesSchedule = some twoPagesFinal := by
  decide

theorem onePageTimeout_run :
    run onePageTimeout (init onePageTimeout) onePageTimeoutSchedule =
      some onePageTimeoutFinal := by
  decide

theorem onePageWaiting_run :
    run onePageTimeout (init onePageTimeout) onePageWaitingSchedule = some onePageWaiting := by
  decide

theorem recvResult_none_of_not_offered (cfg : Config) (s : State)
    (h : resultOffered s = false) (i : Nat) : stepRecvResult cfg s i = none := by
  unfold stepRecvResult
  split
  · rfl
  · split
    · rename_i n rest hw
      have hm := List.getElem?_mem hw
      unfold resultOffered at h
      have := List.any_eq_false.mp h _ hm
      simp at this
    · rfl

/-- C1. In every reachable state of a run in which the URLs `cfg.urls` are
sent on `tasks` and `tasks` is then closed, whatever the fetch outcomes and the
interleaving of the goroutines: every value sent on `total` equals the sum,
over the URLs whose `getPageText` succeeded, of the count of `textToFind` in
the fetched body (failed fetches add nothing); at most one value is sent; and
the run can always be continued to a state in which exactly that value has
been sent. -/
theorem total_is_sum_of_successful_counts (cfg : Config) (s : State)
    (h : Reachable cfg s) :
    (∀ v ∈ s.total, v = expectedTotal cfg 0 cfg.urls) ∧ s.total.length ≤ 1 ∧
    (∃ as s1, run cfg s as = some s1 ∧ s1.total = [expectedTotal cfg 0 cfg.urls]) := by
  have hinv := reachable_inv cfg s h
  refine ⟨?_, ?_, ?_⟩
  · intro v hv
    have hne : s.total ≠ [] := by
      intro hc
      simp [hc] at hv
    have hd := delivered_facts cfg s hinv hne
    rw [hd.2.1] at hv
    simp at hv
    rw [hv]
    exact hd.2.2.2.2.2.2.2.1
  · by_cases hp : s.pc = .returned
    · rw [hinv.total.1 hp]
      simp
    · rw [hinv.total.2 hp]
      simp
  · obtain ⟨as, s1, hr, hret⟩ := can_return cfg (measure s) s hinv (Nat.le_refl _)
    have hinv1 := inv_run cfg s s1 as hinv hr
    have ht := hinv1.total.1 hret
    have hd := delivered_facts cfg s1 hinv1 (by rw [ht]; simp)
    refine ⟨as, s1, hr, ?_⟩
    rw [ht, hd.2.2.2.2.2.2.2.1]

theorem total_is_sum_of_successful_counts_witness :
    Reachable twoPages twoPagesFinal ∧ twoPagesFinal.total = [2] ∧
    expectedTotal twoPages 0 twoPages.urls = 2 ∧
    (∀ v ∈ twoPagesFinal.total, v = expectedTotal twoPages 0 twoPages.urls) :=
  ⟨reachable_of_run _ _ _ twoPages_run, rfl, by decide,
   (total_is_sum_of_successful_counts twoPages twoPagesFinal
      (reachable_of_run _ _ _ twoPages_run)).1⟩

/-- C2. In every reachable state of a run in which `N` URLs are sent on
`tasks` and `tasks` is then closed, for every interleaving: at most one value
has been sent on `total`; if one has been sent, then `N` workers were spawned,
each has called `Done` and finished, and the wait-group counter is 0; every
step either leaves the state unchanged or lowers `measure`; as long as no value
has been sent some step that lowers `measure` is enabled; once the value has
been sent no step is enabled; hence every run that does not repeat the
state-preserving step for ever sends exactly one value, and the run can always
be continued to that point. -/
theorem delivers_exactly_once_after_all_workers (cfg : Config) (s : State)
    (h : Reachable cfg s) :
    s.total.length ≤ 1 ∧
    (s.total ≠ [] →
      s.workers.length = cfg.urls.length ∧ (∀ w ∈ s.workers, w = []) ∧ s.wg = 0) ∧
    (∀ a s1, step cfg s a = some s1 → s1 = s ∨ measure s1 < measure s) ∧
    (s.total = [] → ∃ a s1, step cfg s a = some s1 ∧ measure s1 < measure s) ∧
    (s.total ≠ [] → ∀ a, step cfg s a = none) ∧
    (∃ as s1, run cfg s as = some s1 ∧ s1.total.length = 1) := by
  have hinv := reachable_inv cfg s h
  refine ⟨?_, ?_, ?_, ?_, ?_, ?_⟩
  · by_cases hp : s.pc = .returned
    · rw [hinv.total.1 hp]
      simp
    · rw [hinv.total.2 hp]
      simp
  · intro hne
    have hd := delivered_facts cfg s hinv hne
    exact ⟨hd.2.2.2.2.1, hd.2.2.2.1, hd.2.2.1⟩
  · intro a s1 hst
    rcases measure_step cfg s s1 a hst with ⟨_, _, _, h1⟩ | h1
    · exact Or.inl h1
    · exact Or.inr h1
  · intro ht
    apply progress cfg s hinv
    intro hp
    have := hinv.total.1 hp
    rw [ht] at this
    simp at this
  · intro hne a
    have hd := delivered_facts cfg s hinv hne
    cases a with
    | sendTask => simp [step, stepSendTask, hd.2.2.2.2.2.2.1]
    | closeTasks =>
      have := (closers_nonempty_observed cfg s hinv .finished (by rw [hd.2.2.2.2.2.2.2.2.2]; simp)).2.1
      simp [step, stepCloseTasks, this]
    | recvTask => simp [step, stepRecvTask, startDispatcher, hd.1]
    | recvResult i => simp [step, stepRecvResult, hd.1]
    | recvClosed => simp [step, stepRecvClosed, hd.1]
    | deliver => simp [step, stepDeliver, hd.1]
    | worker i =>
      cases hw : s.workers[i]? with
      | none => simp [step, stepWorker, hw]
      | some w =>
        have := hd.2.2.2.1 w (List.getElem?_mem hw)
        subst this
        simp [step, stepWorker, hw]
    | closer j =>
      cases hc : s.closers[j]? with
      | none => simp [step, stepCloser, hc]
      | some c =>
        have hm := List.getElem?_mem hc
        rw [hd.2.2.2.2.2.2.2.2.2] at hm
        simp at hm
        subst hm
        simp [step, stepCloser, hc]
  · obtain ⟨as, s1, hr, hret⟩ := can_return cfg (measure s) s hinv (Nat.le_refl _)
    have hinv1 := inv_run cfg s s1 as hinv hr
    refine ⟨as, s1, hr, ?_⟩
    rw [hinv1.total.1 hret]
    rfl

theorem delivers_exactly_once_after_all_workers_witness :
    Reachable twoPages twoPagesFinal ∧ twoPagesFinal.total ≠ [] ∧
    (twoPagesFinal.workers.length = twoPages.urls.length ∧
      (∀ w ∈ twoPagesFinal.workers, w = []) ∧ twoPagesFinal.wg = 0) ∧
    Reachable twoPages (init twoPages) ∧ (init twoPages).total = [] ∧
    (∃ a s1, step twoPages (init twoPages) a = some s1 ∧
      measure s1 < measure (init twoPages)) :=
  ⟨reachable_of_run _ _ _ twoPages_run, by decide,
   (delivers_exactly_once_after_all_workers twoPages twoPagesFinal
      (reachable_of_run _ _ _ twoPages_run)).2.1 (by decide),
   Reachable.init, rfl,
   (delivers_exactly_once_after_all_workers twoPages (init twoPages)
      Reachable.init).2.2.2.1 rfl⟩

theorem succeeded_le (cfg : Config) (k : Nat) (urls : List GoString) :
    succeeded cfg k urls ≤ urls.length := by
  induction urls generalizing k with
  | nil => simp [succeeded]
  | cons u us ih =>
    have := ih (k + 1)
    simp only [succeeded, List.length_cons]
    cases (getPageText (cfg.http k) u).2.2 <;> simp <;> omega

/-- C8, evaluated on one URL whose request times out: when the aggregate
is delivered one worker has been spawned and no value has been received from
`results`. -/
theorem received_differs_from_spawned :
    Reachable onePageTimeout onePageTimeoutFinal ∧
    onePageTimeoutFinal.total = [0] ∧
    onePageTimeoutFinal.workers.length = 1 ∧
    onePageTimeoutFinal.received = 0 ∧
    onePageTimeoutFinal.received ≠ onePageTimeoutFinal.workers.length :=
  ⟨reachable_of_run _ _ _ onePageTimeout_run, rfl, rfl, rfl, by decide⟩

/-- C8, amended. When the aggregate has been delivered on `total`, one worker
has been spawned per URL, and the number of values received from `results`
equals the number of those workers whose `getPageText` succeeded (a worker
whose fetch failed sends nothing), which is at most the number spawned. -/
theorem received_equals_successful_workers (cfg : Config) (s : State)
    (h : Reachable cfg s) (ht : s.total ≠ []) :
    s.workers.length = cfg.urls.length ∧
    s.received = succeeded cfg 0 cfg.urls ∧
    s.received ≤ s.workers.length := by
  have hd := delivered_facts cfg s (reachable_inv cfg s h) ht
  refine ⟨hd.2.2.2.2.1, hd.2.2.2.2.2.2.2.2.1, ?_⟩
  rw [hd.2.2.2.2.1, hd.2.2.2.2.2.2.2.2.1]
  exact succeeded_le cfg 0 cfg.urls

theorem received_equals_successful_workers_witness :
    Reachable twoPages twoPagesFinal ∧ twoPagesFinal.total ≠ [] ∧
    succeeded twoPages 0 twoPages.urls = 2 ∧
    (twoPagesFinal.workers.length = twoPages.urls.length ∧
      twoPagesFinal.received = succeeded twoPages 0 twoPages.urls ∧
      twoPagesFinal.received ≤ twoPagesFinal.workers.length) :=
  ⟨reachable_of_run _ _ _ twoPages_run, by decide, by decide,
   received_equals_successful_workers twoPages twoPagesFinal
     (reachable_of_run _ _ _ twoPages_run) (by decide)⟩

theorem step_keeps_goroutines (cfg : Config) (s s1 : State) (a : Action)
    (hq : s.queue = []) (hobs : s.tasksClosed = true)
    (hs : step cfg s a = some s1) :
    s1.workers.length = s.workers.length ∧ s1.closers.length = s.closers.length := by
  cases a with
  | sendTask =>
    simp only [step, stepSendTask] at hs
    split at hs
    · simp at hs
    · split at hs
      · simp only [Option.some.injEq] at hs
        subst hs
        exact ⟨rfl, rfl⟩
      · simp at hs
  | closeTasks =>
    simp only [step, stepCloseTasks] at hs
    split at hs
    · simp only [Option.some.injEq] at hs
      subst hs
      exact ⟨rfl, rfl⟩
    · simp at hs
  | recvTask =>
    simp only [step, stepRecvTask, startDispatcher, hq, hobs] at hs
    split at hs
    · simp at hs
    · split at hs
      · simp at hs
      · simp at hs
        subst hs
        exact ⟨rfl, rfl⟩
  | recvResult i =>
    simp only [step, stepRecvResult, startDispatcher] at hs
    split at hs
    · simp at hs
    · split at hs
      · simp only [Option.some.injEq] at hs
        subst hs
        exact ⟨List.length_set _ _ _, rfl⟩
      · simp at hs
  | recvClosed =>
    simp only [step, stepRecvClosed, startDispatcher] at hs
    split at hs
    · simp only [Option.some.injEq] at hs
      subst hs
      exact ⟨rfl, rfl⟩
    · simp at hs
  | deliver =>
    simp only [step, stepDeliver] at hs
    split at hs
    · simp only [Option.some.injEq] at hs
      subst hs
      exact ⟨rfl, rfl⟩
    · simp at hs
  | worker i =>
    simp only [step, stepWorker] at hs
    split at hs
    · split at hs
      · simp only [Option.some.injEq] at hs
        subst hs
        exact ⟨List.length_set _ _ _, rfl⟩
      · simp at hs
    · simp only [Option.some.injEq] at hs
      subst hs
      exact ⟨List.length_set _ _ _, rfl⟩
    · simp only [Option.some.injEq] at hs
      subst hs
      exact ⟨List.length_set _ _ _, rfl⟩
    · simp at hs
  | closer j =>
    simp only [step, stepCloser] at hs
    split at hs
    · split at hs
      · simp only [Option.some.injEq] at hs
        subst hs
        exact ⟨rfl, List.length_set _ _ _⟩
      · simp at hs
    · simp only [Option.some.injEq] at hs
      subst hs
      exact ⟨rfl, List.length_set _ _ _⟩
    · simp at hs

/-- C9. In every reachable state: at most one wait-and-close goroutine has
been launched, and one has been launched exactly when `tasksClosed` is set;
once `tasksClosed` is set, taking the closed `tasks` case again changes
nothing; once the goroutine is launched no step spawns a worker or launches
another such goroutine; `results` has been closed at most once; once it is
closed no worker has any effect left to perform, so none sends on it; and no
panic (send on a closed channel, second close) has occurred. -/
theorem launch_and_close_at_most_once (cfg : Config) (s : State) (h : Reachable cfg s) :
    s.closers.length ≤ 1 ∧
    (s.closers ≠ [] ↔ s.tasksClosed = true) ∧
    (s.tasksClosed = true → ∀ s1, step cfg s .recvTask = some s1 → s1 = s) ∧
    (s.closers ≠ [] → ∀ a s1, step cfg s a = some s1 →
      s1.workers.length = s.workers.length ∧ s1.closers.length = s.closers.length) ∧
    s.resultsClosed ≤ 1 ∧
    (s.resultsClosed ≠ 0 → ∀ w ∈ s.workers, w = []) ∧
    s.panics = 0 := by
  have hinv := reachable_inv cfg s h
  have hiff : s.closers ≠ [] ↔ s.tasksClosed = true := by
    rcases hinv.closers with ⟨h1, h2⟩ | ⟨⟨c, h1⟩, h2⟩
    · simp [h1, h2]
    · simp [h1, h2]
  have hlen : s.closers.length ≤ 1 := by
    rcases hinv.closers with ⟨h1, _⟩ | ⟨⟨c, h1⟩, _⟩
    · simp [h1]
    · simp [h1]
  refine ⟨hlen, hiff, ?_, ?_, ?_, ?_, hinv.panics⟩
  · intro hobs s1 hst
    have hst1 : stepRecvTask cfg s = some s1 := hst
    rcases measure_recvTask cfg s s1 hst1 with ⟨_, _, h1⟩ | h1
    · exact h1
    · exfalso
      have hq := (hinv.observed hobs).2
      simp only [stepRecvTask, startDispatcher, hq, hobs] at hst1
      split at hst1
      · simp at hst1
      · split at hst1
        · simp at hst1
        · simp at hst1
          subst hst1
          omega
  · intro hne a s1 hst
    have hobs := hiff.mp hne
    exact step_keeps_goroutines cfg s s1 a (hinv.observed hobs).2 hobs hst
  · rw [hinv.closed]
    calc List.count CloserPc.finished s.closers ≤ s.closers.length := List.count_le_length _ _
      _ ≤ 1 := hlen
  · intro hrc
    rw [hinv.closed] at hrc
    have hmem : CloserPc.finished ∈ s.closers := by
      by_contra hc
      exact hrc (List.count_eq_zero.mpr hc)
    exact hinv.woken _ hmem (by decide)

theorem launch_and_close_at_most_once_witness :
    Reachable onePageTimeout onePageWaiting ∧ onePageWaiting.tasksClosed = true ∧
    onePageWaiting.closers ≠ [] ∧
    step onePageTimeout onePageWaiting .recvTask = some onePageWaiting ∧
    (∀ s1, step onePageTimeout onePageWaiting .recvTask = some s1 → s1 = onePageWaiting) ∧
    Reachable onePageTimeout onePageTimeoutFinal ∧ onePageTimeoutFinal.resultsClosed ≠ 0 ∧
    (∀ w ∈ onePageTimeoutFinal.workers, w = []) :=
  ⟨reachable_of_run _ _ _ onePageWaiting_run, rfl, by decide, by decide,
   (launch_and_close_at_most_once onePageTimeout onePageWaiting
      (reachable_of_run _ _ _ onePageWaiting_run)).2.2.1 rfl,
   reachable_of_run _ _ _ onePageTimeout_run, by decide,
   (launch_and_close_at_most_once onePageTimeout onePageTimeoutFinal
      (reachable_of_run _ _ _ onePageTimeout_run)).2.2.2.2.2.1 (by decide)⟩

/-- C10, evaluated on one URL after `tasks` has been closed and seen closed,
with the worker outstanding: no task is queued, no worker offers a result and
`results` is open, yet the `select` has an enabled case, the receive on the
closed `tasks`, and taking it leaves the state as it is. -/
theorem loop_enabled_after_tasks_closed :
    Reachable onePageTimeout onePageWaiting ∧
    onePageWaiting.queue = [] ∧
    resultOffered onePageWaiting = false ∧
    onePageWaiting.resultsClosed = 0 ∧
    onePageWaiting.wg = 1 ∧
    loopEnabled onePageTimeout onePageWaiting = true ∧
    step onePageTimeout onePageWaiting .recvTask = some onePageWaiting :=
  ⟨reachable_of_run _ _ _ onePageWaiting_run, rfl, by decide, rfl, rfl, by decide, by decide⟩

/-- C10, amended. In every reachable state in which `tasks` is not closed and
holds no value, no worker offers a result and `results` is open, the `select`
of the loop has no enabled case (the loop is blocked). Once `tasks` is closed
and empty, the `select` always has an enabled case while the dispatcher is in
its loop, and once `tasksClosed` is set the receive on `tasks` is enabled and
leaves the state unchanged. -/
theorem loop_blocks_while_tasks_open (cfg : Config) (s : State) (h : Reachable cfg s) :
    (s.queue = [] → s.tasksChanClosed = false → resultOffered s = false →
      s.resultsClosed = 0 → loopEnabled cfg s = false) ∧
    (s.pc = .select → s.queue = [] → s.tasksChanClosed = true →
      loopEnabled cfg s = true) ∧
    (s.pc = .select → s.tasksClosed = true → step cfg s .recvTask = some s) := by
  have hinv := reachable_inv cfg s h
  refine ⟨?_, ?_, ?_⟩
  · intro hq htc hoff hrc
    unfold loopEnabled
    have h1 : step cfg s .recvTask = none := by
      simp [step, stepRecvTask, startDispatcher, hq, htc]
    have h2 : step cfg s .recvClosed = none := by
      simp [step, stepRecvClosed, hrc]
    rw [h1, h2]
    simp only [Option.isSome_none, Bool.false_or]
    apply List.any_eq_false.mpr
    intro i _
    simp [step, recvResult_none_of_not_offered cfg s hoff i]
  · intro hpc hq htc
    unfold loopEnabled
    have h1 : (step cfg s .recvTask).isSome = true := by
      simp only [step, stepRecvTask, startDispatcher, hpc, hq, htc]
      simp
    rw [h1]
    rfl
  · intro hpc hobs
    have hq := (hinv.observed hobs).2
    have htc := (hinv.observed hobs).1
    simp [step, stepRecvTask, startDispatcher, hpc, hq, htc, hobs]

theorem loop_blocks_while_tasks_open_witness :
    Reachable twoPages (init twoPages) ∧ (init twoPages).queue = [] ∧
    (init twoPages).tasksChanClosed = false ∧ resultOffered (init twoPages) = false ∧
    (init twoPages).resultsClosed = 0 ∧ loopEnabled twoPages (init twoPages) = false ∧
    Reachable onePageTimeout onePageWaiting ∧ onePageWaiting.pc = .select ∧
    onePageWaiting.tasksClosed = true ∧
    step onePageTimeout onePageWaiting .recvTask = some onePageWaiting :=
  ⟨Reachable.init, rfl, rfl, rfl, rfl,
   (loop_blocks_while_tasks_open twoPages (init twoPages) Reachable.init).1 rfl rfl rfl rfl,
   reachable_of_run _ _ _ onePageWaiting_run, rfl, rfl,
   (loop_blocks_while_tasks_open onePageTimeout onePageWaiting
      (reachable_of_run _ _ _ onePageWaiting_run)).2.2 rfl rfl⟩

end GoParser
